import Mathlib

/-!
Verification of the psyarxivdb incremental harvest/ingest engine.

Shallow embedding of the Python sources in `src/osf` and `src/tools`:
pure string manipulation is translated to Lean functions over `List Char`,
SQLite tables are modelled as Lean lists of row structures (list position =
rowid scan order), SQL statements are translated clause by clause, and the
Python control flow of each function is mirrored by structural recursion or
folds.  Timestamps handled as ISO strings by the code stay `String`;
timestamps that the code parses with `datetime.fromisoformat` and then
compares are abstracted to `Nat` standing for a point on the (totally
ordered) time line.  `Option` models Python `None` / missing JSON fields.
-/

/-! ## String utilities

Python `str.strip` / `re.split(r"[,;]+", ...)` / `re.sub(r"\s+", " ", ...)`
/ `str.lower` used by `src/osf/ingestor.py`.  `isSpaceChar` is the ASCII
whitespace set of Python (`" \t\n\r\x0b\x0c"`); the payloads at issue only
contain these.
-/

def isSpaceChar (c : Char) : Bool :=
  c = ' ' || c = '\t' || c = '\n' || c = '\r' || c = '\x0b' || c = '\x0c'

def isSepChar (c : Char) : Bool :=
  c = ',' || c = ';'

/-- Python `str.strip()` on a character list. -/
def stripChars (cs : List Char) : List Char :=
  ((cs.dropWhile isSpaceChar).reverse.dropWhile isSpaceChar).reverse

def stripStr (s : String) : String :=
  String.mk (stripChars s.data)

/-- Python `str.lower()` (the tags and institution names at issue are ASCII). -/
def lowerStr (s : String) : String :=
  String.mk (s.data.map Char.toLower)

/-- One step of a right fold implementing `re.split(r"[,;]+", s)`.
State: (the character to the right was a separator, pieces built so far,
head of the piece list = piece currently being extended on its left). -/
def splitSepsStep (c : Char) : Bool × List (List Char) → Bool × List (List Char)
  | (sepRight, l) =>
    match l with
    | [] => (sepRight, l)
    | p :: ps =>
      if isSepChar c then
        if sepRight then (true, p :: ps) else (true, [] :: p :: ps)
      else (false, (c :: p) :: ps)

/-- `re.split(r"[,;]+", s)`: pieces between maximal separator runs,
with empty boundary pieces exactly as the Python regex produces them. -/
def splitSeps (cs : List Char) : List (List Char) :=
  (cs.foldr splitSepsStep (false, [[]])).snd

/-- One step of a right fold implementing `re.sub(r"\s+", " ", s)`:
a whitespace character is dropped if a (collapsed) space is already on its
right, otherwise replaced by a single space. -/
def collapseWsStep (c : Char) (acc : List Char) : List Char :=
  if isSpaceChar c then
    match acc with
    | ' ' :: _ => acc
    | _ => ' ' :: acc
  else c :: acc

def collapseWs (cs : List Char) : List Char :=
  cs.foldr collapseWsStep []

/-- Byte-lexicographic strict order on strings (SQLite BINARY collation on
UTF-8 text coincides with code-point lexicographic order). -/
def charsLtB : List Char → List Char → Bool
  | [], [] => false
  | [], _ :: _ => true
  | _ :: _, [] => false
  | c :: cs, d :: ds => if c = d then charsLtB cs ds else decide (c < d)

def strLtB (a b : String) : Bool :=
  charsLtB a.data b.data

def strLeB (a b : String) : Bool :=
  !strLtB b a

/-- `date_str.split(".")[0]` as used by `get_most_recent_modified_date`
(the Python code only splits when a "." is present, which gives the same
result as always taking the part before the first "."). -/
def takeBeforeDot (s : String) : String :=
  String.mk (s.data.takeWhile (fun c => c ≠ '.'))

/-- First-occurrence-preserving deduplication, Python
`list(dict.fromkeys(xs))`.  Also reused to model `list(set(xs))` where only
the resulting id set matters. -/
def dedupFirstAux : List String → List String → List String
  | [], _ => []
  | x :: xs, seen => if x ∈ seen then dedupFirstAux xs seen else x :: dedupFirstAux xs (x :: seen)

def dedupFirst (l : List String) : List String :=
  dedupFirstAux l []

/-! ## Tag pipeline (`src/osf/ingestor.py`, `clean_and_parse_tags`,
`normalize_tag_text`, `get_or_create_tag_id`)

The `tags` lookup table is a list of rows `(id, tag_text, use_count)` in
rowid order; `last_pk` of an insert is modelled as max existing id + 1,
SQLite's rowid assignment.  A raw tag that is `None` or not a string is
skipped by `clean_and_parse_tags`; such values are modelled by `""`, which
the same guard also skips.
-/

structure TagRow where
  tid : Nat
  text : String
  useCount : Nat
deriving DecidableEq

def tagsMaxId (tbl : List TagRow) : Nat :=
  tbl.foldl (fun m r => max m r.tid) 0

/-- `clean_and_parse_tags`: per raw tag, split on comma/semicolon runs,
strip whitespace, keep non-empty pieces; finally deduplicate preserving
first-seen order.  (Case is preserved here; lowering happens in
`normalize_tag_text`, exactly as in the source.) -/
def cleanAndParseTags (tagsData : List String) : List String :=
  dedupFirst
    ((tagsData.filter (fun t => t ≠ "")).flatMap
      (fun t => ((splitSeps t.data).map (fun p => String.mk (stripChars p))).filter
        (fun x => x ≠ "")))

/-- `normalize_tag_text`: strip, lowercase, collapse internal whitespace. -/
def normalizeTagText (s : String) : String :=
  if s = "" then ""
  else String.mk (collapseWs ((stripChars s.data).map Char.toLower))

/-- `get_or_create_tag_id`: find the row whose `tag_text` equals the
normalized tag; bump its `use_count`, or insert a fresh row with count 1.
Returns the updated table and the tag id (none for empty input). -/
def getOrCreateTagId (tbl : List TagRow) (tagText : String) : List TagRow × Option Nat :=
  if tagText = "" then (tbl, none)
  else
    let norm := normalizeTagText tagText
    if norm = "" then (tbl, none)
    else
      match tbl.find? (fun r => r.text == norm) with
      | some r =>
        (tbl.map (fun q => if q.tid = r.tid then ⟨q.tid, q.text, r.useCount + 1⟩ else q),
         some r.tid)
      | none =>
        (tbl ++ [⟨tagsMaxId tbl + 1, norm, 1⟩], some (tagsMaxId tbl + 1))

/-- The tag sub-step of `process_preprint` restricted to the lookup table:
clean the raw list and run `get_or_create_tag_id` on every cleaned tag,
collecting the ids used for the relationship rows. -/
def processRecordTags (tbl : List TagRow) (tagsData : List String) : List TagRow × List Nat :=
  (cleanAndParseTags tagsData).foldl
    (fun acc t =>
      let r := getOrCreateTagId acc.fst t
      match r.snd with
      | some i => (r.fst, acc.snd ++ [i])
      | none => (r.fst, acc.snd))
    (tbl, [])

/-! ## Version flag reconciliation (`src/osf/ingestor.py`,
`fix_latest_version_flags`, `fix_contributor_latest_version_flags`)

A `preprints` row carries id (primary key), `version` (NULL or integer,
`Option Int` with `none` = NULL) and the stored `is_latest_version` integer.
The reconciliation query is

    SELECT id, version, is_latest_version,
      CASE WHEN id LIKE '%_v%' THEN SUBSTR(id, 1, INSTR(id, '_v') - 1)
           ELSE id END as base_id
    FROM preprints ORDER BY base_id, version DESC

Note that in SQLite `LIKE`, `_` is a single-character wildcard and matching
is ASCII-case-insensitive, so `id LIKE '%_v%'` holds iff some `v` or `V`
occurs at character index ≥ 1; `INSTR` is a case-sensitive literal search
returning 0 when `'_v'` is absent, and `SUBSTR(id, 1, -1)` is the empty
string.  `likeUV`, `findUV` and `codeBaseId` model exactly this.
`specBaseId` is the base identity in the words of the spec ("a record's id
with any '_v' version suffix stripped"), for comparison.
-/

structure PRow where
  id : String
  version : Option Int
  latest : Nat
deriving DecidableEq

/-- `id LIKE '%_v%'` under SQLite semantics: a `v`/`V` at index ≥ 1. -/
def likeUV (s : String) : Bool :=
  (s.data.drop 1).any (fun c => c = 'v' || c = 'V')

/-- `INSTR(id, '_v')`: 1-based position of the first literal `_v`, else 0. -/
def findUV : List Char → Nat → Nat
  | '_' :: 'v' :: _, i => i
  | _ :: rest, i => findUV rest (i + 1)
  | [], _ => 0

/-- The `base_id` the SQL actually computes (empty when the LIKE matches
but no literal `_v` exists, because `SUBSTR(id, 1, -1) = ''`). -/
def codeBaseId (s : String) : String :=
  if likeUV s then String.mk (s.data.take (findUV s.data 1 - 1)) else s

/-- Modelled from the spec: the base identity of the spec's glossary, the
id with everything from the first literal `_v` on stripped, the id itself
when no `_v` occurs.  Used only to state the spec-side invariant. -/
def specBaseId (s : String) : String :=
  if findUV s.data 1 = 0 then s else String.mk (s.data.take (findUV s.data 1 - 1))

/-- `version DESC` comparison with SQLite NULLs-smallest semantics. -/
def verGtB : Option Int → Option Int → Bool
  | some x, some y => decide (x > y)
  | some _, none => true
  | none, _ => false

def verLeB (a b : Option Int) : Bool :=
  !verGtB a b

/-- Strict "comes before" order of `ORDER BY base_id, version DESC`. -/
def rowBefore (a b : PRow) : Bool :=
  strLtB (codeBaseId a.id) (codeBaseId b.id) ||
    (codeBaseId a.id == codeBaseId b.id && verGtB a.version b.version)

/-- Stable insertion: a row goes after every existing row it is not
strictly before, so ties keep table scan order. -/
def insertRow (r : PRow) : List PRow → List PRow
  | [] => [r]
  | x :: xs => if rowBefore r x then r :: x :: xs else x :: insertRow r xs

/-- The result set of the reconciliation query (a deterministic stable
realization of `ORDER BY base_id, version DESC`). -/
def sortRows (rows : List PRow) : List PRow :=
  rows.foldl (fun acc r => insertRow r acc) []

/-- The `updates_needed` loop of `fix_latest_version_flags`: walking the
sorted result set, the first row of each `base_id` block should be latest
(the Python state pair (current_base_id, highest_version_seen) collapses to
the previous row's base id); a row is recorded iff its stored flag differs
from the target flag. -/
def computeUpdates : Option String → List PRow → List (String × Nat)
  | _, [] => []
  | cur, r :: rs =>
    let b := codeBaseId r.id
    let tgt : Nat := if cur = some b then 0 else 1
    let rest := computeUpdates (some b) rs
    if r.latest = tgt then rest else (r.id, tgt) :: rest

/-- Every flag set to its target value; only used to reason about the pass. -/
def retarget : Option String → List PRow → List PRow
  | _, [] => []
  | cur, r :: rs =>
    let b := codeBaseId r.id
    PRow.mk r.id r.version (if cur = some b then 0 else 1) :: retarget (some b) rs

/-- `UPDATE preprints SET is_latest_version = ? WHERE id = ?` for one row of
the table, given the recorded updates (id is the primary key). -/
def applyFlag (ups : List (String × Nat)) (r : PRow) : PRow :=
  match ups.find? (fun u => u.fst == r.id) with
  | some u => PRow.mk r.id r.version u.snd
  | none => r

def applyUpdates (rows : List PRow) (ups : List (String × Nat)) : List PRow :=
  rows.map (applyFlag ups)

/-- `fix_latest_version_flags`: returns the updated table and the number of
rows updated (`len(updates_needed)`). -/
def fixLatestVersionFlags (rows : List PRow) : List PRow × Nat :=
  let ups := computeUpdates none (sortRows rows)
  (applyUpdates rows ups, ups.length)

/-- A `preprint_contributors` row (the fields the reconciliation touches). -/
structure CRow where
  preprint_id : String
  osf_user_id : String
  latest : Nat
deriving DecidableEq

/-- The WHERE EXISTS clause of `fix_contributor_latest_version_flags`:
some parent row with this preprint id has a different flag. -/
def contribMismatch (ps : List PRow) (c : CRow) : Bool :=
  ps.any (fun p => p.id == c.preprint_id && p.latest != c.latest)

/-- `fix_contributor_latest_version_flags`: the single UPDATE statement —
every relationship row with a disagreeing parent gets the parent's flag
(the correlated subquery returns the first matching parent); the returned
count is the cursor's rowcount, the number of rows satisfying the WHERE. -/
def fixContributorLatestVersionFlags (ps : List PRow) (cs : List CRow) :
    List CRow × Nat :=
  (cs.map (fun c =>
      if contribMismatch ps c then
        match ps.find? (fun p => p.id == c.preprint_id) with
        | some p => CRow.mk c.preprint_id c.osf_user_id p.latest
        | none => c
      else c),
   cs.countP (fun c => contribMismatch ps c))

/-- A `preprint_subjects` row (denormalized flag copy included). -/
structure SRow where
  preprint_id : String
  subject_id : String
  latest : Nat
deriving DecidableEq

/-- A `preprint_tags` row (denormalized flag copy included). -/
structure TRow where
  preprint_id : String
  tag_id : Nat
  latest : Nat
deriving DecidableEq

/-- The reconciliation pass as run after a batch
(`process_all_new_preprints`): `fix_latest_version_flags` then
`fix_contributor_latest_version_flags`.  No statement of either function
touches `preprint_subjects` or `preprint_tags`, so those tables pass
through unchanged. -/
def reconciliationPass (ps : List PRow) (cs : List CRow) (ss : List SRow) (ts : List TRow) :
    List PRow × List CRow × List SRow × List TRow :=
  let ps2 := (fixLatestVersionFlags ps).fst
  let cs2 := (fixContributorLatestVersionFlags ps2 cs).fst
  (ps2, cs2, ss, ts)

/-- Modelled from the spec: the C1 claim itself.  For every row, its
spec-side base-identity group contains exactly one row flagged 1, and a
flagged row's version is maximal in its group. -/
def claimC1Holds (rows : List PRow) : Prop :=
  ∀ r ∈ rows,
    (rows.filter (fun q => specBaseId q.id == specBaseId r.id)).countP
        (fun q => q.latest == 1) = 1 ∧
    (r.latest = 1 →
      ∀ q ∈ rows, specBaseId q.id = specBaseId r.id → verLeB q.version r.version = true)

instance claimC1Holds.dec (rows : List PRow) : Decidable (claimC1Holds rows) := by
  unfold claimC1Holds
  exact inferInstance

/-! ## Harvester (`src/osf/harvester.py`)

A fetched API document is modelled by its fields the harvester reads: `id`
(`""` models a missing/empty id, both falsy in Python) and the attribute
timestamps (`none` models an absent key or JSON null — both fail the
`last_processed_date and last_processed_date != 'unknown'` guard, exactly
like the `'unknown'` default the code substitutes for an absent key).
`raw_data` is a list of rows in rowid order; `sqlite-utils` `upsert` with
`pk="id"` replaces the existing row in place or appends a new one.
`fetch_date` (`datetime.now().isoformat()`) is an environment input passed
in as `now`. -/

structure Doc where
  id : String
  date_created : Option String
  date_modified : Option String
deriving DecidableEq

structure RawRow where
  id : String
  date_created : Option String
  date_modified : Option String
  payload : Doc
  fetch_date : String
deriving DecidableEq

def upsertRaw (store : List RawRow) (row : RawRow) : List RawRow :=
  if store.any (fun r => r.id == row.id) then
    store.map (fun r => if r.id == row.id then row else r)
  else store ++ [row]

/-- `save_preprint`: reject a document with missing/empty id before any
database operation; otherwise upsert the raw row keyed by the id. -/
def savePreprint (now : String) (store : List RawRow) (d : Doc) : List RawRow × Bool :=
  if d.id = "" then (store, false)
  else (upsertRaw store (RawRow.mk d.id d.date_created d.date_modified d now), true)

def osfApiUrl : String := "https://api.osf.io/v2/preprints/"

/-- The query string `build_api_url` assembles from `config.DEFAULT_PARAMS`:
Python dict insertion order keeps `sort` first (it is overwritten in place
with `date_modified`), the default `filter[date_created][gt]=2010-01-01`
floor stays, the `embed` list contributes one part per element, and a
`filter[date_modified][gt]` part is appended last when a from-date is
given. -/
def defaultQuery : String :=
  String.append "sort=date_modified&filter[date_created][gt]=2010-01-01"
    "&embed=contributors&embed=license&fields[licenses]=name&page[size]=50"

/-- `build_api_url`. -/
def buildApiUrl : Option String → String
  | none => osfApiUrl ++ "?" ++ defaultQuery
  | some fd => osfApiUrl ++ "?" ++ defaultQuery ++ "&filter[date_modified][gt]=" ++ fd

/-- The guard `last_processed_date and last_processed_date != 'unknown'`:
the outer `none` is the initial Python `None`, the inner `Option` is the
document's `date_modified` (`none` = absent key / null, which Python sees
as the falsy `'unknown'` default resp. `None`). -/
def knownDate : Option (Option String) → Bool
  | some (some s) => !(s == "") && !(s == "unknown")
  | _ => false

def lpString : Option (Option String) → Option String
  | some (some s) => some s
  | _ => none

/-- One document of the per-page loop of `harvest_preprints` (the
`limit=None` run): save it, and on success count it and record its
`date_modified` as `last_processed_date`. -/
def processPageStep (now : String) (acc : List RawRow × Option (Option String) × Nat)
    (d : Doc) : List RawRow × Option (Option String) × Nat :=
  let r := savePreprint now acc.fst d
  if r.snd then (r.fst, some d.date_modified, acc.snd.snd + 1)
  else (r.fst, acc.snd.fst, acc.snd.snd)

/-- The per-page document loop of `harvest_preprints`: save each document,
counting successes and tracking `last_processed_date` = the
`date_modified` of the last successfully saved document. -/
def processPage (now : String) (store : List RawRow) (docs : List Doc) :
    List RawRow × Option (Option String) × Nat :=
  docs.foldl (processPageStep now) (store, none, 0)

/-- One iteration of the `while url` loop of `harvest_preprints` after the
response arrived (`docs` = `data['data']`, `nextLink` = `data['links']['next']`,
`none`/`some ""` = JSON null resp. empty link, both falsy): returns the new
store, the new `from_date` and the URL of the next request.  The next URL
is rebuilt via `build_api_url` from the updated `from_date` exactly when
the next link is truthy and the last saved document's timestamp passed the
known-date guard; otherwise the provided next link is used as is. -/
def harvestStep (now : String) (store : List RawRow) (fromDate : Option String)
    (docs : List Doc) (nextLink : Option String) :
    List RawRow × Option String × Option String :=
  let pr := processPage now store docs
  let lp := pr.snd.fst
  let fd2 := if knownDate lp then lpString lp else fromDate
  let url2 :=
    match nextLink with
    | some nl => if nl ≠ "" ∧ knownDate lp = true then some (buildApiUrl fd2) else some nl
    | none => none
  (pr.fst, fd2, url2)

/-- The last document of a page that `save_preprint` accepted (saving
succeeds exactly for documents with a non-empty id). -/
def lastSavedDoc (docs : List Doc) : Option Doc :=
  (docs.filter (fun d => d.id ≠ "")).getLast?

/-- SQL `SELECT ... ORDER BY date_modified DESC LIMIT 1` over the non-null
timestamps: the maximum in SQLite BINARY (byte-lexicographic) order. -/
def listMaxStr : List String → Option String
  | [] => none
  | x :: xs => some (xs.foldl (fun a b => if strLtB a b then b else a) x)

/-- `get_most_recent_modified_date`: maximum stored `date_modified`
(ignoring NULLs), truncated at the first "." ("remove microseconds"); None
when there is no row (or the maximum is the empty string, which is falsy in
the `if result and result[0]` guard). -/
def getMostRecentModifiedDate (store : List RawRow) : Option String :=
  match listMaxStr (store.filterMap RawRow.date_modified) with
  | some s => if s = "" then none else some (takeBeforeDot s)
  | none => none

/-- A sequence of saves as performed by a harvest run (every document the
run receives goes through `save_preprint`, whatever page it was on). -/
def harvestSaveAll (now : String) (store : List RawRow) (docs : List Doc) : List RawRow :=
  docs.foldl (fun st d => (savePreprint now st d).fst) store

/-! ## Gap filling (`src/tools/fix_gaps.py`, `harvest_date_range`)

Here the code parses `date_modified` with `datetime.fromisoformat` and
compares datetimes, so timestamps are abstracted to `Nat` on the time line;
`none` models a document whose `date_modified` is absent or empty (the
`if preprint_date_str:` guard skips it entirely — no save).  The chain of
pages the remote source would serve (each obtained by following the
response's next link, the list ending when the next link is null) is the
`pages` input; `harvest_date_range` walks it, saving in page order and
stopping at the first document beyond `endTs`. -/

structure GapDoc where
  id : String
  dm : Option Nat
deriving DecidableEq

structure GapRow where
  id : String
  dm : Option Nat
deriving DecidableEq

def upsertGap (store : List GapRow) (row : GapRow) : List GapRow :=
  if store.any (fun r => r.id == row.id) then
    store.map (fun r => if r.id == row.id then row else r)
  else store ++ [row]

/-- `save_preprint` at the datetime level of abstraction. -/
def saveGapDoc (store : List GapRow) (d : GapDoc) : List GapRow × Bool :=
  if d.id = "" then (store, false)
  else (upsertGap store (GapRow.mk d.id d.dm), true)

/-- The inner document loop of `harvest_date_range`: skip documents without
a timestamp, stop (returning the `stop_processing` flag) at the first
document with timestamp beyond the end of the range, save the rest. -/
def processGapDocs (endTs : Nat) : List GapDoc → List GapRow → Nat → List GapRow × Nat × Bool
  | [], st, n => (st, n, false)
  | d :: ds, st, n =>
    match d.dm with
    | none => processGapDocs endTs ds st n
    | some t =>
      if endTs < t then (st, n, true)
      else
        let r := saveGapDoc st d
        processGapDocs endTs ds r.fst (if r.snd then n + 1 else n)

/-- The `while url` loop of `harvest_date_range`: process a page; if the
page hit the end of the range, stop without following any next link, else
continue with the next page until the chain ends. -/
def harvestDateRange (endTs : Nat) : List (List GapDoc) → List GapRow → Nat → List GapRow × Nat
  | [], st, n => (st, n)
  | pg :: pgs, st, n =>
    let r := processGapDocs endTs pg st n
    if r.snd.snd then (r.fst, r.snd.fst) else harvestDateRange endTs pgs r.fst r.snd.fst

/-- A document at which `harvest_date_range` stops: known timestamp beyond
the end of the range. -/
def gapStop (endTs : Nat) (d : GapDoc) : Bool :=
  match d.dm with
  | some t => decide (endTs < t)
  | none => false

def gapSaveFold (store : List GapRow) (docs : List GapDoc) : List GapRow :=
  docs.foldl (fun st d => (saveGapDoc st d).fst) store

/-- Documents of a processed prefix that produce a counted save: a known
timestamp (hence not skipped) and a non-empty id. -/
def gapSavedCount (docs : List GapDoc) : Nat :=
  (docs.filter (fun d => d.dm.isSome && d.id != "")).length

/-! ## Denormalized view selection (`src/osf/optimizer_ui.py`,
`populate_preprints_ui`, incremental branch)

`datetime(x)` in the two SQL queries normalizes a stored string to a
datetime or NULL; a parent/view timestamp is therefore `Option Nat` (`none`
= NULL or unparsable) and the join comparison is strict `>` requiring both
sides non-NULL. -/

structure UPRow where
  id : String
  dm : Option Nat
deriving DecidableEq

structure UIRow where
  id : String
  lastUpdated : Option Nat
deriving DecidableEq

def dtGt : Option Nat → Option Nat → Bool
  | some a, some b => decide (a > b)
  | _, _ => false

/-- First query: parent ids with no `preprints_ui` row (LEFT JOIN, NULL). -/
def newIds (ps : List UPRow) (ui : List UIRow) : List String :=
  (ps.filter (fun p => !(ui.any (fun u => u.id == p.id)))).map UPRow.id

/-- Second query: the inner join keeping pairs whose parent `date_modified`
is strictly newer than the view row's `last_updated`. -/
def staleIds (ps : List UPRow) (ui : List UIRow) : List String :=
  ps.flatMap (fun p =>
    (ui.filter (fun u => u.id == p.id && dtGt p.dm u.lastUpdated)).map (fun _ => p.id))

/-- `preprint_ids = list(set(new_preprint_ids + modified_preprint_ids))`
(the set is modelled by first-occurrence deduplication; all claims about it
are membership statements). -/
def selectIncremental (ps : List UPRow) (ui : List UIRow) : List String :=
  dedupFirst (newIds ps ui ++ staleIds ps ui)

/-! ## `process_preprint` (`src/osf/ingestor.py`)

The whole body of `process_preprint` sits inside one `try`; the single
`except` logs and returns `False`.  The record data is modelled by the
fields the sub-entity steps read; sub-entity extraction is translated
literally (subjects hierarchy walk, tag pipeline above, contributor
deduplication by user id, employment → institution get-or-create).  A
database exception is modelled by an oracle telling which step (if any)
raises: the step's writes are not applied, control jumps to the `except`
handler, and the function returns `False` with the state written so far.
(`contrib.employment` stands for the JSON round-trip
`json.dumps`/`json.loads` of the employment array, which is the identity on
the well-formed values `extract_employment_data` keeps; entries whose
institution is missing — modelled `""` — are dropped by it.) -/

structure SubjNode where
  sid : String
  stext : String
deriving DecidableEq

structure SubjectRow where
  sid : String
  stext : String
  parent : Option String
deriving DecidableEq

def upsertSubject (tbl : List SubjectRow) (row : SubjectRow) : List SubjectRow :=
  if tbl.any (fun r => r.sid == row.sid) then
    tbl.map (fun r => if r.sid == row.sid then row else r)
  else tbl ++ [row]

/-- The inner level walk of `process_subjects_data`: skip nodes missing id
or text (the `continue` leaves `parent_id` unchanged), upsert the rest,
collect their ids, and thread the previous kept node as parent. -/
def processSubjLevels (par : Option String) (nodes : List SubjNode)
    (tbl : List SubjectRow) (acc : List String) : List SubjectRow × List String :=
  match nodes with
  | [] => (tbl, acc)
  | nd :: rest =>
    if nd.sid = "" ∨ nd.stext = "" then processSubjLevels par rest tbl acc
    else
      processSubjLevels (some nd.sid) rest
        (upsertSubject tbl (SubjectRow.mk nd.sid nd.stext par)) (acc ++ [nd.sid])

/-- `process_subjects_data`: every hierarchy starts a fresh `parent_id`. -/
def processSubjectsData (tbl : List SubjectRow) (subjectsData : List (List SubjNode)) :
    List SubjectRow × List String :=
  subjectsData.foldl (fun acc h => processSubjLevels none h acc.fst acc.snd) (tbl, [])

structure EmpNode where
  institution : String
  position : Option String
  startDate : Option String
  endDate : Option String
deriving DecidableEq

structure ContribNode where
  userId : String
  fullName : String
  employment : List EmpNode
  authorIndex : Nat
  bibliographic : Bool
deriving DecidableEq

structure ContribRow where
  osf_user_id : String
  fullName : String
deriving DecidableEq

structure InstRow where
  iid : Nat
  name : String
deriving DecidableEq

structure AffRow where
  contributor_id : String
  institution_id : Nat
  position : Option String
  startDate : Option String
  endDate : Option String
deriving DecidableEq

structure PCRow where
  preprint_id : String
  osf_user_id : String
  authorIndex : Nat
  bibliographic : Nat
  latest : Nat
deriving DecidableEq

def instMaxId (tbl : List InstRow) : Nat :=
  tbl.foldl (fun m r => max m r.iid) 0

/-- `get_or_create_institution_id`: case-insensitive name lookup, lazy
creation. -/
def getOrCreateInstitutionId (tbl : List InstRow) (nm : String) : List InstRow × Option Nat :=
  if nm = "" then (tbl, none)
  else
    let clean := stripStr nm
    if clean = "" then (tbl, none)
    else
      match tbl.find? (fun r => lowerStr r.name == lowerStr clean) with
      | some r => (tbl, some r.iid)
      | none => (tbl ++ [InstRow.mk (instMaxId tbl + 1) clean], some (instMaxId tbl + 1))

/-- `extract_employment_data` on the modelled employment list: keep entries
naming an institution. -/
def extractEmploymentData (emp : List EmpNode) : List EmpNode :=
  emp.filter (fun e => e.institution ≠ "")

/-- The contributor dictionary of `extract_contributor_data`: keyed by osf
user id, first-insertion position, last-written value; nodes without a user
id are skipped. -/
def contribDict (nodes : List ContribNode) : List ContribNode :=
  nodes.foldl
    (fun acc nd =>
      if nd.userId = "" then acc
      else if acc.any (fun x => x.userId == nd.userId) then
        acc.map (fun x => if x.userId == nd.userId then nd else x)
      else acc ++ [nd])
    []

def upsertContrib (tbl : List ContribRow) (row : ContribRow) : List ContribRow :=
  if tbl.any (fun r => r.osf_user_id == row.osf_user_id) then
    tbl.map (fun r => if r.osf_user_id == row.osf_user_id then row else r)
  else tbl ++ [row]

def upsertAff (tbl : List AffRow) (row : AffRow) : List AffRow :=
  if tbl.any (fun r =>
      r.contributor_id == row.contributor_id && r.institution_id == row.institution_id
        && r.startDate == row.startDate) then
    tbl.map (fun r =>
      if r.contributor_id == row.contributor_id && r.institution_id == row.institution_id
          && r.startDate == row.startDate then row else r)
  else tbl ++ [row]

def upsertPC (tbl : List PCRow) (row : PCRow) : List PCRow :=
  if tbl.any (fun r => r.preprint_id == row.preprint_id && r.osf_user_id == row.osf_user_id) then
    tbl.map (fun r =>
      if r.preprint_id == row.preprint_id && r.osf_user_id == row.osf_user_id then row else r)
  else tbl ++ [row]

def upsertSRow (tbl : List SRow) (row : SRow) : List SRow :=
  if tbl.any (fun r => r.preprint_id == row.preprint_id && r.subject_id == row.subject_id) then
    tbl.map (fun r =>
      if r.preprint_id == row.preprint_id && r.subject_id == row.subject_id then row else r)
  else tbl ++ [row]

def upsertTRow (tbl : List TRow) (row : TRow) : List TRow :=
  if tbl.any (fun r => r.preprint_id == row.preprint_id && r.tag_id == row.tag_id) then
    tbl.map (fun r =>
      if r.preprint_id == row.preprint_id && r.tag_id == row.tag_id then row else r)
  else tbl ++ [row]

/-- The record fields `process_preprint` reads from the parsed payload. -/
structure RecordData where
  isLatest : Bool
  subjects : List (List SubjNode)
  tags : List String
  contributors : List ContribNode
deriving DecidableEq

/-- The normalized-store tables `process_preprint` writes.  The parent
`preprints` table is reduced to its id set (the flattened scalar columns
play no role in the claims about this function). -/
structure IngestState where
  preprints : List String
  subjects : List SubjectRow
  preprintSubjects : List SRow
  tags : List TagRow
  preprintTags : List TRow
  contributors : List ContribRow
  institutions : List InstRow
  contributorAffiliations : List AffRow
  preprintContributors : List PCRow
deriving DecidableEq

/-- The successive database-writing phases of `process_preprint`, in source
order. -/
inductive Step where
  | parentUpsert
  | subjectsStep
  | tagsStep
  | contributorsStep
  | relationshipsStep
deriving DecidableEq

def upsertParent (st : IngestState) (pid : String) : IngestState :=
  { st with preprints := if pid ∈ st.preprints then st.preprints else st.preprints ++ [pid] }

def doSubjects (st : IngestState) (pid : String) (rec : RecordData) : IngestState :=
  if rec.subjects = [] then st
  else
    let r := processSubjectsData st.subjects rec.subjects
    if r.snd = [] then { st with subjects := r.fst }
    else
      { st with
        subjects := r.fst
        preprintSubjects :=
          r.snd.foldl
            (fun tbl sid => upsertSRow tbl (SRow.mk pid sid (if rec.isLatest then 1 else 0)))
            st.preprintSubjects }

def doTags (st : IngestState) (pid : String) (rec : RecordData) : IngestState :=
  if rec.tags = [] then st
  else
    let r := processRecordTags st.tags rec.tags
    { st with
      tags := r.fst
      preprintTags :=
        r.snd.foldl
          (fun tbl tid => upsertTRow tbl (TRow.mk pid tid (if rec.isLatest then 1 else 0)))
          st.preprintTags }

def doContributors (st : IngestState) (rec : RecordData) : IngestState :=
  let ds := contribDict rec.contributors
  if ds = [] then st
  else
    let contribs := ds.foldl (fun tbl nd => upsertContrib tbl (ContribRow.mk nd.userId nd.fullName))
      st.contributors
    let instAff :=
      ds.foldl
        (fun acc nd =>
          (extractEmploymentData nd.employment).foldl
            (fun acc2 e =>
              let r := getOrCreateInstitutionId acc2.fst e.institution
              match r.snd with
              | some iid =>
                (r.fst,
                 upsertAff acc2.snd (AffRow.mk nd.userId iid e.position e.startDate e.endDate))
              | none => (r.fst, acc2.snd))
            acc)
        (st.institutions, st.contributorAffiliations)
    { st with
      contributors := contribs
      institutions := instAff.fst
      contributorAffiliations := instAff.snd }

def doRelationships (st : IngestState) (pid : String) (rec : RecordData) : IngestState :=
  let rels := (rec.contributors.filter (fun nd => nd.userId ≠ "")).map
    (fun nd =>
      PCRow.mk pid nd.userId nd.authorIndex (if nd.bibliographic then 1 else 0)
        (if rec.isLatest then 1 else 0))
  if rels = [] then st
  else { st with preprintContributors := rels.foldl upsertPC st.preprintContributors }

/-- `process_preprint`: the phases run in order inside a single
`try`/`except`; `oracle s = true` means the database raises during phase
`s`, which jumps to the handler — the function returns `False` and no later
phase runs. -/
def processPreprint (oracle : Step → Bool) (pid : String) (rec : RecordData)
    (st : IngestState) : Bool × IngestState :=
  if oracle Step.parentUpsert then (false, st)
  else
    let st1 := upsertParent st pid
    if oracle Step.subjectsStep then (false, st1)
    else
      let st2 := doSubjects st1 pid rec
      if oracle Step.tagsStep then (false, st2)
      else
        let st3 := doTags st2 pid rec
        if oracle Step.contributorsStep then (false, st3)
        else
          let st4 := doContributors st3 rec
          if oracle Step.relationshipsStep then (false, st4)
          else (true, doRelationships st4 pid rec)

/-- Modelled from the spec: the C2 claim — every relationship row of the
three tables carrying a denormalized flag copy agrees with its parent
`preprints` row. -/
def flagsConsistent (ps : List PRow) (cs : List CRow) (ss : List SRow) (ts : List TRow) : Prop :=
  (∀ c ∈ cs, ∀ p ∈ ps, p.id = c.preprint_id → c.latest = p.latest) ∧
  (∀ s ∈ ss, ∀ p ∈ ps, p.id = s.preprint_id → s.latest = p.latest) ∧
  (∀ t ∈ ts, ∀ p ∈ ps, p.id = t.preprint_id → t.latest = p.latest)

instance flagsConsistent.dec (ps : List PRow) (cs : List CRow) (ss : List SRow)
    (ts : List TRow) : Decidable (flagsConsistent ps cs ss ts) := by
  unfold flagsConsistent
  exact inferInstance

/-- Concrete record and empty store used to exercise `process_preprint`. -/
def recC6 : RecordData :=
  RecordData.mk true [[SubjNode.mk "s1" "Psychology"]] ["Memory"]
    [ContribNode.mk "u1" "Ann Smith" [] 0 true]

def emptyIngestState : IngestState :=
  IngestState.mk [] [] [] [] [] [] [] [] []

/-! ## Claim theorems -/

/-- C1: the claim — after `fix_latest_version_flags`, every spec-side base
identity (id with any literal `_v` suffix stripped) has exactly one row
flagged latest, carrying the maximal version — is what the function's own
docstring promises, but the SQL breaks it: `id LIKE '%_v%'` treats `_` as a
wildcard, so the version-less ids `abcv` and `xycv` both match, `INSTR`
finds no literal `_v`, and `SUBSTR(id, 1, -1)` files both under the empty
base id; the pass then demotes `xycv` to `is_latest_version = 0` even
though it is the only (hence highest-version) row of its own base identity.
The input satisfies the claimed invariant, the output does not. -/
theorem fixLatestVersionFlags_wildcard_bug :
    fixLatestVersionFlags [PRow.mk "abcv" (some 1) 1, PRow.mk "xycv" (some 1) 1] =
      ([PRow.mk "abcv" (some 1) 1, PRow.mk "xycv" (some 1) 0], 1) ∧
    codeBaseId "abcv" = "" ∧ codeBaseId "xycv" = "" ∧
    specBaseId "abcv" = "abcv" ∧ specBaseId "xycv" = "xycv" ∧
    claimC1Holds [PRow.mk "abcv" (some 1) 1, PRow.mk "xycv" (some 1) 1] ∧
    ¬ claimC1Holds
        (fixLatestVersionFlags [PRow.mk "abcv" (some 1) 1, PRow.mk "xycv" (some 1) 1]).fst := by
  exact ⟨by decide, by decide, by decide, by decide, by decide, by decide, by decide⟩

/-- C2 counterexample: a state with parent rows `a` (version 1) and `a_v2`
(version 2), a contributor relationship row and a tag relationship row for
`a`, all flagged 1.  Reconciliation demotes parent `a` and fixes the
contributor copy, but no pass touches `preprint_tags`, whose row keeps
flag 1 against its parent's 0 — the claim, quantified over the three
relationship tables, is false. -/
theorem reconciliationPass_tags_inconsistent :
    reconciliationPass [PRow.mk "a" (some 1) 1, PRow.mk "a_v2" (some 2) 1]
        [CRow.mk "a" "u1" 1] [] [TRow.mk "a" 1 1] =
      ([PRow.mk "a" (some 1) 0, PRow.mk "a_v2" (some 2) 1],
       [CRow.mk "a" "u1" 0], [], [TRow.mk "a" 1 1]) ∧
    ¬ flagsConsistent [PRow.mk "a" (some 1) 0, PRow.mk "a_v2" (some 2) 1]
        [CRow.mk "a" "u1" 0] [] [TRow.mk "a" 1 1] := by
  exact ⟨by decide, by decide⟩

/-- C3 counterexample: a page whose documents are both saved — the first
with the known timestamp `2020-01-01T00:00:00`, the second (saved last)
with no timestamp.  The response carries a next link, and the code follows
that provided link verbatim instead of rebuilding the URL from the saved
known timestamp, because only the *last* saved document's timestamp is
consulted: the claim's "the provided next link is followed only when no
document with a known timestamp was saved on the page" is false. -/
theorem harvestStep_follows_next_despite_known_save :
    (harvestStep "t0" [] none
        [Doc.mk "a" none (some "2020-01-01T00:00:00"), Doc.mk "b" none none]
        (some "NEXT")).snd.snd = some "NEXT" ∧
    (savePreprint "t0" [] (Doc.mk "a" none (some "2020-01-01T00:00:00"))).snd = true ∧
    knownDate (some (some "2020-01-01T00:00:00")) = true ∧
    (savePreprint "t0"
        (savePreprint "t0" [] (Doc.mk "a" none (some "2020-01-01T00:00:00"))).fst
        (Doc.mk "b" none none)).snd = true ∧
    some "NEXT" ≠ some (buildApiUrl (some "2020-01-01T00:00:00")) := by
  exact ⟨by decide, by decide, by decide, by decide, by decide⟩

/-- C4 counterexample: with one stored record whose `date_modified` carries
microseconds, the computed resume point is the timestamp truncated at the
".", not the maximum itself; and with no stored records the function
returns None, not the configured `2010-01-01` floor (that floor only ever
appears as the constant `filter[date_created][gt]` URL parameter). -/
theorem getMostRecentModifiedDate_not_max :
    getMostRecentModifiedDate
        [RawRow.mk "a" none (some "2020-01-01T12:00:00.123456")
          (Doc.mk "a" none (some "2020-01-01T12:00:00.123456")) "f0"] =
      some "2020-01-01T12:00:00" ∧
    listMaxStr
        ([RawRow.mk "a" none (some "2020-01-01T12:00:00.123456")
          (Doc.mk "a" none (some "2020-01-01T12:00:00.123456")) "f0"].filterMap
          RawRow.date_modified) =
      some "2020-01-01T12:00:00.123456" ∧
    some "2020-01-01T12:00:00" ≠ some "2020-01-01T12:00:00.123456" ∧
    getMostRecentModifiedDate [] = none ∧
    (none : Option String) ≠ some "2010-01-01" := by
  exact ⟨by decide, by decide, by decide, by decide, by decide⟩

/-- C5 counterexample: a page containing a single document with no
`date_modified`.  It precedes any document exceeding the range end (there
is none), so the claim says it is saved — but `harvest_date_range` only
saves documents that pass the `if preprint_date_str:` guard, and the store
stays empty. -/
theorem harvestDateRange_skips_dateless_doc :
    harvestDateRange 10 [[GapDoc.mk "a" none]] [] 0 = ([], 0) ∧
    gapStop 10 (GapDoc.mk "a" none) = false := by
  exact ⟨by decide, by decide⟩

/-- C6 counterexample: a record with a subject hierarchy, a tag and a
contributor.  When the database raises during the subjects phase, the
single `try`/`except` of `process_preprint` aborts the whole record: the
function returns False and neither the tag pipeline nor the contributor
rows run — against the claim that a sub-entity exception leaves the other
sub-entities processed.  (With no exception the same record does populate
`preprint_tags` and `preprint_contributors`.) -/
theorem processPreprint_no_subentity_isolation :
    (processPreprint (fun s => s == Step.subjectsStep) "p1" recC6 emptyIngestState).fst
        = false ∧
    (processPreprint (fun s => s == Step.subjectsStep) "p1" recC6 emptyIngestState).snd.tags
        = [] ∧
    (processPreprint (fun s => s == Step.subjectsStep) "p1" recC6
        emptyIngestState).snd.preprintTags = [] ∧
    (processPreprint (fun s => s == Step.subjectsStep) "p1" recC6
        emptyIngestState).snd.preprintContributors = [] ∧
    (processPreprint (fun _ => false) "p1" recC6 emptyIngestState).snd.preprintTags
        = [TRow.mk "p1" 1 1] ∧
    (processPreprint (fun _ => false) "p1" recC6 emptyIngestState).snd.preprintContributors
        = [PCRow.mk "p1" "u1" 0 1 1] := by
  exact ⟨by decide, by decide, by decide, by decide, by decide, by decide⟩

/-- C8: the two-record tag scenario of the claim.  Processing tag list
`["Neuroscience, Open Science"]` and then `["open science"]` through
`clean_and_parse_tags` + `get_or_create_tag_id` leaves exactly the rows
`neuroscience` (use_count 1) and `open science` (use_count 2). -/
theorem tagPipeline_two_records :
    (processRecordTags (processRecordTags [] ["Neuroscience, Open Science"]).fst
        ["open science"]).fst =
      [TagRow.mk 1 "neuroscience" 1, TagRow.mk 2 "open science" 2] := by
  decide

/-! ### Lemmas about the raw-store upsert -/

theorem self_mem_upsertRaw (store : List RawRow) (row : RawRow) :
    row ∈ upsertRaw store row := by
  unfold upsertRaw
  cases hany : store.any (fun r => r.id == row.id) with
  | false =>
    rw [if_neg (by simp)]
    exact List.mem_append_right _ (List.mem_singleton.mpr rfl)
  | true =>
    rw [if_pos rfl]
    obtain ⟨q, hq, hb⟩ := List.any_eq_true.mp hany
    exact List.mem_map.mpr ⟨q, hq, by rw [if_pos hb]⟩

theorem mem_map_id_upsertRaw (store : List RawRow) (row : RawRow) (x : String) :
    x ∈ (upsertRaw store row).map RawRow.id ↔ x ∈ store.map RawRow.id ∨ x = row.id := by
  unfold upsertRaw
  cases hany : store.any (fun r => r.id == row.id) with
  | false =>
    rw [if_neg (by simp)]
    simp only [List.map_append, List.mem_append, List.map_cons, List.map_nil,
      List.mem_singleton]
  | true =>
    rw [if_pos rfl, List.map_map]
    simp only [List.mem_map, Function.comp_apply, List.mem_map]
    constructor
    · rintro ⟨r, hr, hx⟩
      by_cases hb : r.id = row.id
      · right
        rw [← hx, if_pos (beq_iff_eq.mpr hb)]
      · left
        refine ⟨r, hr, ?_⟩
        rw [← hx, if_neg (by simp [hb])]
    · rintro (⟨r, hr, hx⟩ | rfl)
      · by_cases hb : r.id = row.id
        · refine ⟨r, hr, ?_⟩
          rw [if_pos (beq_iff_eq.mpr hb), ← hb]
          exact hx
        · refine ⟨r, hr, ?_⟩
          rw [if_neg (by simp [hb])]
          exact hx
      · obtain ⟨q, hq, hb⟩ := List.any_eq_true.mp hany
        exact ⟨q, hq, by rw [if_pos hb]⟩

theorem map_id_upsertRaw_of_present (store : List RawRow) (row : RawRow)
    (h : store.any (fun r => r.id == row.id) = true) :
    (upsertRaw store row).map RawRow.id = store.map RawRow.id := by
  unfold upsertRaw
  rw [if_pos h, List.map_map]
  refine List.map_congr_left ?_
  intro r _
  by_cases hb : r.id = row.id
  · simp only [Function.comp_apply, if_pos (beq_iff_eq.mpr hb)]
    exact hb.symm
  · simp only [Function.comp_apply, if_neg (by simp [hb] :
      ¬(r.id == row.id) = true)]

theorem mem_upsertRaw_of_ne (store : List RawRow) (row r : RawRow)
    (hr : r ∈ store) (hne : r.id ≠ row.id) : r ∈ upsertRaw store row := by
  unfold upsertRaw
  cases hany : store.any (fun q => q.id == row.id) with
  | false =>
    rw [if_neg (by simp)]
    exact List.mem_append_left _ hr
  | true =>
    rw [if_pos rfl]
    exact List.mem_map.mpr ⟨r, hr, by rw [if_neg (by simp [hne])]⟩

theorem mem_upsertRaw_cases (store : List RawRow) (row r : RawRow)
    (h : r ∈ upsertRaw store row) : r = row ∨ r ∈ store := by
  unfold upsertRaw at h
  cases hany : store.any (fun q => q.id == row.id) with
  | false =>
    rw [hany, if_neg (by simp)] at h
    rcases List.mem_append.mp h with h1 | h1
    · exact Or.inr h1
    · exact Or.inl (List.mem_singleton.mp h1)
  | true =>
    rw [hany, if_pos rfl] at h
    obtain ⟨q, hq, hqr⟩ := List.mem_map.mp h
    by_cases hb : q.id = row.id
    · rw [if_pos (beq_iff_eq.mpr hb)] at hqr
      exact Or.inl hqr.symm
    · rw [if_neg (by simp [hb])] at hqr
      exact Or.inr (hqr ▸ hq)

/-- C10: `save_preprint` rejects an id-less document before touching the
store; a save with a non-empty id succeeds and upserts exactly the row
keyed by that id (the id set gains exactly `d.id`, rows with other ids are
untouched, and re-saving the same document leaves the id column unchanged);
and the raw store never gains a row with an empty source id. -/
theorem savePreprint_spec (now now2 : String) (store : List RawRow) (d : Doc) :
    (d.id = "" → savePreprint now store d = (store, false)) ∧
    (d.id ≠ "" →
      (savePreprint now store d).snd = true ∧
      (∀ x, x ∈ (savePreprint now store d).fst.map RawRow.id ↔
        x ∈ store.map RawRow.id ∨ x = d.id) ∧
      (∀ r ∈ store, r.id ≠ d.id → r ∈ (savePreprint now store d).fst) ∧
      (savePreprint now2 (savePreprint now store d).fst d).fst.map RawRow.id =
        (savePreprint now store d).fst.map RawRow.id) ∧
    ((∀ r ∈ store, r.id ≠ "") → ∀ r ∈ (savePreprint now store d).fst, r.id ≠ "") := by
  refine ⟨fun h => by simp [savePreprint, h], fun h => ?_, fun hall r hr => ?_⟩
  · have hs : savePreprint now store d =
        (upsertRaw store (RawRow.mk d.id d.date_created d.date_modified d now), true) := by
      simp [savePreprint, h]
    refine ⟨by rw [hs], fun x => by rw [hs]; exact mem_map_id_upsertRaw store _ x,
      fun r hr hne => by rw [hs]; exact mem_upsertRaw_of_ne store _ r hr hne, ?_⟩
    have hs2 : savePreprint now2 (savePreprint now store d).fst d =
        ((upsertRaw (savePreprint now store d).fst
          (RawRow.mk d.id d.date_created d.date_modified d now2)), true) := by
      simp [savePreprint, h]
    rw [hs2]
    refine map_id_upsertRaw_of_present _ _ (List.any_eq_true.mpr ?_)
    refine ⟨RawRow.mk d.id d.date_created d.date_modified d now, ?_, by simp⟩
    rw [hs]
    exact self_mem_upsertRaw store _
  · by_cases hid : d.id = ""
    · rw [(by simp [savePreprint, hid] : savePreprint now store d = (store, false))] at hr
      exact hall r hr
    · simp only [savePreprint, hid, if_false] at hr
      rcases mem_upsertRaw_cases _ _ _ hr with h1 | h1
      · rw [h1]
        exact hid
      · exact hall r h1

/-- Witness for C10: a successful save of document id `a` onto the empty
store, then re-saved — the id column is unchanged by the second save. -/
theorem savePreprint_spec_witness :
    (savePreprint "t1" (savePreprint "t0" [] (Doc.mk "a" none none)).fst
        (Doc.mk "a" none none)).fst.map RawRow.id =
      (savePreprint "t0" [] (Doc.mk "a" none none)).fst.map RawRow.id :=
  ((savePreprint_spec "t0" "t1" [] (Doc.mk "a" none none)).2.1 (by decide)).2.2.2

/-! ### Incremental view selection (C9) -/

theorem mem_dedupFirstAux (l : List String) (x : String) :
    ∀ seen, x ∈ dedupFirstAux l seen ↔ x ∈ l ∧ x ∉ seen := by
  induction l with
  | nil => intro seen; simp [dedupFirstAux]
  | cons y ys ih =>
    intro seen
    by_cases h : y ∈ seen
    · rw [dedupFirstAux, if_pos h, ih]
      constructor
      · rintro ⟨hx, hs⟩
        exact ⟨List.mem_cons_of_mem _ hx, hs⟩
      · rintro ⟨hx, hs⟩
        rcases List.mem_cons.mp hx with rfl | hx
        · exact absurd h hs
        · exact ⟨hx, hs⟩
    · rw [dedupFirstAux, if_neg h]
      constructor
      · intro hx
        rcases List.mem_cons.mp hx with rfl | hx
        · exact ⟨List.mem_cons_self _ _, h⟩
        · obtain ⟨h1, h2⟩ := (ih _).mp hx
          exact ⟨List.mem_cons_of_mem _ h1, fun hc => h2 (List.mem_cons_of_mem _ hc)⟩
      · rintro ⟨hx, hs⟩
        rcases List.mem_cons.mp hx with rfl | hx
        · exact List.mem_cons_self _ _
        · by_cases hxy : x = y
          · subst hxy
            exact List.mem_cons_self _ _
          · refine List.mem_cons_of_mem _ ((ih _).mpr ⟨hx, ?_⟩)
            intro hc
            rcases List.mem_cons.mp hc with h1 | h1
            · exact hxy h1
            · exact hs h1

theorem mem_dedupFirst (l : List String) (x : String) : x ∈ dedupFirst l ↔ x ∈ l := by
  rw [dedupFirst, mem_dedupFirstAux]
  simp

theorem mem_newIds (ps : List UPRow) (ui : List UIRow) (i : String) :
    i ∈ newIds ps ui ↔ ∃ p ∈ ps, p.id = i ∧ ∀ u ∈ ui, u.id ≠ i := by
  unfold newIds
  simp only [List.mem_map, List.mem_filter, Bool.not_eq_true']
  constructor
  · rintro ⟨p, ⟨hp, hany⟩, rfl⟩
    refine ⟨p, hp, rfl, ?_⟩
    intro u hu
    have := List.any_eq_false.mp hany u hu
    simpa using this
  · rintro ⟨p, hp, rfl, hall⟩
    refine ⟨p, ⟨hp, ?_⟩, rfl⟩
    refine List.any_eq_false.mpr ?_
    intro u hu
    simpa using hall u hu

theorem mem_staleIds (ps : List UPRow) (ui : List UIRow) (i : String) :
    i ∈ staleIds ps ui ↔
      ∃ p ∈ ps, p.id = i ∧ ∃ u ∈ ui, u.id = i ∧ dtGt p.dm u.lastUpdated = true := by
  unfold staleIds
  simp only [List.mem_flatMap, List.mem_map, List.mem_filter, Bool.and_eq_true, beq_iff_eq]
  constructor
  · rintro ⟨p, hp, u, ⟨hu, hid, hgt⟩, rfl⟩
    exact ⟨p, hp, rfl, u, hu, hid, hgt⟩
  · rintro ⟨p, hp, rfl, u, hu, hid, hgt⟩
    exact ⟨p, hp, u, ⟨hu, hid, hgt⟩, rfl⟩

/-- C9: in incremental mode, the ids selected by `populate_preprints_ui`
are exactly the (deduplicated) union of the parent ids absent from the view
table and the parent ids whose `date_modified` is strictly newer than the
view row's `last_updated`; a parent with a view row and no strictly newer
timestamp is not selected. -/
theorem populatePreprintsUi_incremental_selection (ps : List UPRow) (ui : List UIRow)
    (i : String) :
    (i ∈ selectIncremental ps ui ↔
      ((∃ p ∈ ps, p.id = i ∧ ∀ u ∈ ui, u.id ≠ i) ∨
       (∃ p ∈ ps, p.id = i ∧ ∃ u ∈ ui, u.id = i ∧ dtGt p.dm u.lastUpdated = true))) ∧
    ((∃ u ∈ ui, u.id = i) →
      (∀ p ∈ ps, p.id = i → ∀ u ∈ ui, u.id = i → dtGt p.dm u.lastUpdated = false) →
      i ∉ selectIncremental ps ui) := by
  have hiff : i ∈ selectIncremental ps ui ↔
      ((∃ p ∈ ps, p.id = i ∧ ∀ u ∈ ui, u.id ≠ i) ∨
       (∃ p ∈ ps, p.id = i ∧ ∃ u ∈ ui, u.id = i ∧ dtGt p.dm u.lastUpdated = true)) := by
    rw [selectIncremental, mem_dedupFirst, List.mem_append, mem_newIds, mem_staleIds]
  refine ⟨hiff, ?_⟩
  rintro ⟨u0, hu0, hid0⟩ hnostale hmem
  rcases hiff.mp hmem with ⟨p, _, rfl, hnone⟩ | ⟨p, hp, rfl, u, hu, hid, hgt⟩
  · exact hnone u0 hu0 hid0
  · rw [hnostale p hp rfl u hu hid] at hgt
    cases hgt

/-- Witness for C9: a parent whose view row is up to date is skipped by the
incremental selection. -/
theorem populatePreprintsUi_incremental_selection_witness :
    "b" ∉ selectIncremental [UPRow.mk "b" (some 3)] [UIRow.mk "b" (some 3)] :=
  (populatePreprintsUi_incremental_selection [UPRow.mk "b" (some 3)]
    [UIRow.mk "b" (some 3)] "b").2 (by decide) (by decide)

/-! ### The byte-lexicographic order (C4) -/

theorem charsLtB_irrefl (a : List Char) : charsLtB a a = false := by
  induction a with
  | nil => rfl
  | cons c cs ih => simp [charsLtB, ih]

theorem charsLtB_trans : ∀ a b c : List Char,
    charsLtB a b = true → charsLtB b c = true → charsLtB a c = true
  | [], [], _, h1, _ => by cases h1
  | [], _ :: _, [], _, h2 => by cases h2
  | [], _ :: _, _ :: _, _, _ => rfl
  | _ :: _, [], _, h1, _ => by cases h1
  | _ :: _, _ :: _, [], _, h2 => by cases h2
  | x :: xs, y :: ys, z :: zs, h1, h2 => by
    simp only [charsLtB] at h1 h2 ⊢
    by_cases hxy : x = y
    · subst hxy
      by_cases hyz : x = z
      · subst hyz
        rw [if_pos rfl] at h1 h2 ⊢
        exact charsLtB_trans xs ys zs h1 h2
      · rw [if_pos rfl] at h1
        rw [if_neg hyz] at h2 ⊢
        exact h2
    · by_cases hyz : y = z
      · subst hyz
        rw [if_neg hxy] at h1 ⊢
        exact h1
      · rw [if_neg hxy] at h1
        rw [if_neg hyz] at h2
        have hlt : x < z := lt_trans (of_decide_eq_true h1) (of_decide_eq_true h2)
        rw [if_neg (ne_of_lt hlt)]
        exact decide_eq_true hlt

theorem charsLtB_conn : ∀ a b : List Char,
    charsLtB a b = false → charsLtB b a = false → a = b
  | [], [], _, _ => rfl
  | [], _ :: _, h1, _ => by cases h1
  | _ :: _, [], _, h2 => by cases h2
  | x :: xs, y :: ys, h1, h2 => by
    simp only [charsLtB] at h1 h2
    by_cases hxy : x = y
    · subst hxy
      rw [if_pos rfl] at h1 h2
      rw [charsLtB_conn xs ys h1 h2]
    · rw [if_neg hxy] at h1
      rw [if_neg (Ne.symm hxy)] at h2
      exact absurd (le_antisymm (not_lt.mp (of_decide_eq_false h2))
        (not_lt.mp (of_decide_eq_false h1))) hxy
theorem foldMaxStr_spec (xs : List String) : ∀ a : String,
    (xs.foldl (fun p q => if strLtB p q then q else p) a = a ∨
      xs.foldl (fun p q => if strLtB p q then q else p) a ∈ xs) ∧
    strLtB (xs.foldl (fun p q => if strLtB p q then q else p) a) a = false ∧
    ∀ x ∈ xs, strLtB (xs.foldl (fun p q => if strLtB p q then q else p) a) x = false := by
  induction xs with
  | nil =>
    intro a
    refine ⟨Or.inl rfl, ?_, by simp⟩
    simp only [List.foldl_nil]
    exact charsLtB_irrefl a.data
  | cons b bs ih =>
    intro a
    simp only [List.foldl_cons]
    by_cases hb : strLtB a b = true
    · rw [if_pos hb]
      obtain ⟨hmem, hrb, hall⟩ := ih b
      refine ⟨?_, ?_, ?_⟩
      · rcases hmem with h | h
        · refine Or.inr ?_
          rw [h]
          exact List.mem_cons_self _ _
        · exact Or.inr (List.mem_cons_of_mem _ h)
      · by_contra hc
        rw [Bool.not_eq_false] at hc
        have h2 : strLtB (bs.foldl (fun p q => if strLtB p q then q else p) b) b = true :=
          charsLtB_trans _ _ _ hc hb
        simp [h2] at hrb
      · intro x hx
        rcases List.mem_cons.mp hx with rfl | hx
        · exact hrb
        · exact hall x hx
    · rw [if_neg hb]
      obtain ⟨hmem, hra, hall⟩ := ih a
      refine ⟨?_, hra, ?_⟩
      · rcases hmem with h | h
        · exact Or.inl h
        · exact Or.inr (List.mem_cons_of_mem _ h)
      · intro x hx
        rcases List.mem_cons.mp hx with rfl | hx
        · by_contra hc
          rw [Bool.not_eq_false] at hc
          have hax : strLtB a x = false := by
            simpa using hb
          cases hxa : strLtB x a with
          | true =>
            have h2 : strLtB (bs.foldl (fun p q => if strLtB p q then q else p) a) a = true :=
              charsLtB_trans _ _ _ hc hxa
            simp [h2] at hra
          | false =>
            have hdata : x.data = a.data := charsLtB_conn x.data a.data hxa hax
            have h2 : strLtB (bs.foldl (fun p q => if strLtB p q then q else p) a) a = true := by
              rw [strLtB, ← hdata]
              exact hc
            simp [h2] at hra
        · exact hall x hx

theorem listMaxStr_spec (l : List String) (m : String) (h : listMaxStr l = some m) :
    m ∈ l ∧ ∀ x ∈ l, strLtB m x = false := by
  cases l with
  | nil => cases h
  | cons x xs =>
    rw [listMaxStr, Option.some_inj] at h
    obtain ⟨hmem, hx, hall⟩ := foldMaxStr_spec xs x
    subst h
    refine ⟨?_, ?_⟩
    · rcases hmem with h | h
      · rw [h]
        exact List.mem_cons_self _ _
      · exact List.mem_cons_of_mem _ h
    · intro y hy
      rcases List.mem_cons.mp hy with rfl | hy
      · exact hx
      · exact hall y hy

theorem harvestSaveAll_no_new_ids (now : String) : ∀ (docs : List Doc) (store : List RawRow),
    (∀ d ∈ docs, d.id = "" ∨ d.id ∈ store.map RawRow.id) →
    (harvestSaveAll now store docs).map RawRow.id = store.map RawRow.id := by
  intro docs
  induction docs with
  | nil => intro store _; rfl
  | cons d ds ih =>
    intro store hall
    have hstep : harvestSaveAll now store (d :: ds) =
        harvestSaveAll now (savePreprint now store d).fst ds := rfl
    by_cases hid : d.id = ""
    · rw [hstep, (by simp [savePreprint, hid] : (savePreprint now store d).fst = store)]
      exact ih store (fun q hq => hall q (List.mem_cons_of_mem _ hq))
    · have hmem : d.id ∈ store.map RawRow.id := by
        rcases hall d (List.mem_cons_self _ _) with h | h
        · exact absurd h hid
        · exact h
      obtain ⟨r, hr, hrid⟩ := List.mem_map.mp hmem
      have hany : store.any (fun q =>
          q.id == (RawRow.mk d.id d.date_created d.date_modified d now).id) = true :=
        List.any_eq_true.mpr ⟨r, hr, beq_iff_eq.mpr hrid⟩
      have hids : (savePreprint now store d).fst.map RawRow.id = store.map RawRow.id := by
        simp only [savePreprint, hid, if_false]
        exact map_id_upsertRaw_of_present _ _ hany
      have hrec := ih (savePreprint now store d).fst (fun q hq => by
        rcases hall q (List.mem_cons_of_mem _ hq) with h | h
        · exact Or.inl h
        · exact Or.inr (hids ▸ h))
      rw [hstep, hrec, hids]

/-- C4 (amended): the resume point computed by
`get_most_recent_modified_date` is the byte-lexicographic maximum of the
stored non-null `date_modified` values *truncated at the first "."*
(microseconds stripped), and it is None — not an epoch floor — when no such
value exists; re-running the harvest when every document the API returns is
already stored (or id-less) adds no row to `raw_data`. -/
theorem getMostRecentModifiedDate_spec (now : String) (store : List RawRow)
    (docs : List Doc) :
    (store.filterMap RawRow.date_modified = [] →
      getMostRecentModifiedDate store = none) ∧
    (∀ s, getMostRecentModifiedDate store = some s →
      ∃ m ∈ store.filterMap RawRow.date_modified, s = takeBeforeDot m ∧
        ∀ x ∈ store.filterMap RawRow.date_modified, strLtB m x = false) ∧
    ((∀ d ∈ docs, d.id = "" ∨ d.id ∈ store.map RawRow.id) →
      (harvestSaveAll now store docs).map RawRow.id = store.map RawRow.id) := by
  refine ⟨?_, ?_, harvestSaveAll_no_new_ids now docs store⟩
  · intro h
    rw [getMostRecentModifiedDate, h]
    rfl
  · intro s hs
    cases hm : listMaxStr (store.filterMap RawRow.date_modified) with
    | none => simp [getMostRecentModifiedDate, hm] at hs
    | some m =>
      rw [getMostRecentModifiedDate, hm] at hs
      by_cases hme : m = ""
      · simp [hme] at hs
      · simp only [hme, if_false, Option.some_inj] at hs
        obtain ⟨hmem, hall⟩ := listMaxStr_spec _ _ hm
        exact ⟨m, hmem, hs.symm, hall⟩

/-- Witness for C4: re-saving the only stored document adds no row. -/
theorem getMostRecentModifiedDate_spec_witness :
    (harvestSaveAll "t1"
        [RawRow.mk "a" none (some "2020-01-01T00:00:00") (Doc.mk "a" none none) "t0"]
        [Doc.mk "a" none (some "2020-01-02T00:00:00")]).map RawRow.id =
      [RawRow.mk "a" none (some "2020-01-01T00:00:00") (Doc.mk "a" none none) "t0"].map
        RawRow.id :=
  (getMostRecentModifiedDate_spec "t1"
      [RawRow.mk "a" none (some "2020-01-01T00:00:00") (Doc.mk "a" none none) "t0"]
      [Doc.mk "a" none (some "2020-01-02T00:00:00")]).2.2 (by decide)

/-! ### The harvest pagination step (C3) -/

theorem cons_getLast?_some {α : Type} (y : α) (ys : List α) :
    ∃ z, (y :: ys).getLast? = some z := by
  induction ys generalizing y with
  | nil => exact ⟨y, rfl⟩
  | cons w ws ih =>
    obtain ⟨z, hz⟩ := ih w
    exact ⟨z, by rw [List.getLast?_cons_cons, hz]⟩

theorem processPage_fold_lp (now : String) : ∀ (docs : List Doc) (st : List RawRow)
    (lp : Option (Option String)) (n : Nat),
    (docs.foldl (processPageStep now) (st, lp, n)).snd.fst =
      match (docs.filter (fun d => d.id ≠ "")).getLast? with
      | some d => some d.date_modified
      | none => lp := by
  intro docs
  induction docs with
  | nil => intro st lp n; rfl
  | cons d ds ih =>
    intro st lp n
    rw [List.foldl_cons]
    by_cases hid : d.id = ""
    · have hf : processPageStep now (st, lp, n) d = (st, lp, n) := by
        simp [processPageStep, savePreprint, hid]
      rw [hf, ih]
      have hfil : (d :: ds).filter (fun q => q.id ≠ "") = ds.filter (fun q => q.id ≠ "") := by
        rw [List.filter_cons]
        simp [hid]
      rw [hfil]
    · have hf : processPageStep now (st, lp, n) d =
          ((savePreprint now st d).fst, some d.date_modified, n + 1) := by
        simp [processPageStep, savePreprint, hid]
      rw [hf, ih]
      have hfil : (d :: ds).filter (fun q => q.id ≠ "") =
          d :: ds.filter (fun q => q.id ≠ "") := by
        rw [List.filter_cons]
        simp [hid]
      rw [hfil]
      cases hfl : ds.filter (fun q => q.id ≠ "") with
      | nil => rfl
      | cons y ys =>
        rw [List.getLast?_cons_cons]
        obtain ⟨z, hz⟩ := cons_getLast?_some y ys
        rw [hz]

theorem processPage_lastSaved (now : String) (store : List RawRow) (docs : List Doc) :
    (processPage now store docs).snd.fst = (lastSavedDoc docs).map Doc.date_modified := by
  rw [processPage, processPage_fold_lp, lastSavedDoc]
  cases hl : (docs.filter (fun d => d.id ≠ "")).getLast? with
  | none => rfl
  | some d => rfl

/-- C3 (amended): the URL of the next request is `build_api_url` of the
timestamp of the *last successfully saved* document of the page whenever
the response carries a (truthy) next link and that last saved document has
a known timestamp; in every other case — nothing saved, or the last saved
document's `date_modified` missing/null/`'unknown'`/empty — the provided
next link is followed verbatim. -/
theorem harvestStep_nextUrl (now : String) (store : List RawRow) (fromDate : Option String)
    (docs : List Doc) (nextLink : Option String) :
    (harvestStep now store fromDate docs nextLink).snd.snd =
      match nextLink with
      | some nl =>
        if nl ≠ "" ∧ knownDate ((lastSavedDoc docs).map Doc.date_modified) = true then
          some (buildApiUrl (lpString ((lastSavedDoc docs).map Doc.date_modified)))
        else some nl
      | none => none := by
  unfold harvestStep
  simp only [processPage_lastSaved]
  cases nextLink with
  | none => rfl
  | some nl =>
    by_cases hk : knownDate ((lastSavedDoc docs).map Doc.date_modified) = true
    · by_cases hnl : nl = ""
      · simp [hnl]
      · simp [hnl, hk]
    · simp only [Bool.not_eq_true] at hk
      simp [hk]

/-! ### Gap filling (C5) -/

theorem takeWhile_append_of_any {α : Type} (p : α → Bool) :
    ∀ (l1 l2 : List α), l1.any p = true →
      (l1 ++ l2).takeWhile (fun a => !p a) = l1.takeWhile (fun a => !p a) := by
  intro l1
  induction l1 with
  | nil => intro l2 h; cases h
  | cons a l1 ih =>
    intro l2 h
    cases hp : p a with
    | true => simp [List.takeWhile_cons, hp]
    | false =>
      have h1 : l1.any p = true := by
        rcases List.any_eq_true.mp h with ⟨x, hx, hpx⟩
        rcases List.mem_cons.mp hx with rfl | hx
        · rw [hp] at hpx; cases hpx
        · exact List.any_eq_true.mpr ⟨x, hx, hpx⟩
      simp [List.takeWhile_cons, hp, ih l2 h1]

theorem takeWhile_append_of_none {α : Type} (p : α → Bool) :
    ∀ (l1 l2 : List α), l1.any p = false →
      (l1 ++ l2).takeWhile (fun a => !p a) = l1 ++ l2.takeWhile (fun a => !p a) := by
  intro l1
  induction l1 with
  | nil => intro l2 _; rfl
  | cons a l1 ih =>
    intro l2 h
    have hp : p a = false := by
      cases hpa : p a with
      | false => rfl
      | true => simp [List.any_cons, hpa] at h
    have h1 : l1.any p = false := by
      cases h1 : l1.any p with
      | false => rfl
      | true => simp [List.any_cons, h1] at h
    simp [List.takeWhile_cons, hp, ih l2 h1]

theorem takeWhile_of_any_false {α : Type} (p : α → Bool) (l : List α)
    (h : l.any p = false) : l.takeWhile (fun a => !p a) = l := by
  have := takeWhile_append_of_none p l [] h
  simpa using this

theorem processGapDocs_eq (endTs : Nat) : ∀ (docs : List GapDoc) (st : List GapRow) (n : Nat),
    processGapDocs endTs docs st n =
      (gapSaveFold st
        ((docs.takeWhile (fun d => !gapStop endTs d)).filter (fun d => d.dm.isSome)),
       n + gapSavedCount (docs.takeWhile (fun d => !gapStop endTs d)),
       docs.any (gapStop endTs)) := by
  intro docs
  induction docs with
  | nil => intro st n; rfl
  | cons d ds ih =>
    intro st n
    cases hdm : d.dm with
    | none =>
      have hstop : gapStop endTs d = false := by simp [gapStop, hdm]
      have hred : processGapDocs endTs (d :: ds) st n = processGapDocs endTs ds st n := by
        simp only [processGapDocs, hdm]
      rw [hred, ih]
      have hs : d.dm.isSome = false := by rw [hdm]; rfl
      have h1 : (d :: ds).takeWhile (fun q => !gapStop endTs q) =
          d :: ds.takeWhile (fun q => !gapStop endTs q) := by
        simp [List.takeWhile_cons, hstop]
      have h2 : (d :: ds.takeWhile (fun q => !gapStop endTs q)).filter
          (fun q => q.dm.isSome) =
          (ds.takeWhile (fun q => !gapStop endTs q)).filter (fun q => q.dm.isSome) := by
        simp [List.filter_cons, hs]
      have h3 : gapSavedCount (d :: ds.takeWhile (fun q => !gapStop endTs q)) =
          gapSavedCount (ds.takeWhile (fun q => !gapStop endTs q)) := by
        simp [gapSavedCount, List.filter_cons, hs]
      have h4 : (d :: ds).any (gapStop endTs) = ds.any (gapStop endTs) := by
        simp [List.any_cons, hstop]
      rw [h1, h2, h3, h4]
    | some t =>
      by_cases hlt : endTs < t
      · have hstop : gapStop endTs d = true := by simp [gapStop, hdm, hlt]
        have hred : processGapDocs endTs (d :: ds) st n = (st, n, true) := by
          simp only [processGapDocs, hdm]
          rw [if_pos hlt]
        rw [hred]
        have h1 : (d :: ds).takeWhile (fun q => !gapStop endTs q) = [] := by
          simp [List.takeWhile_cons, hstop]
        have h4 : (d :: ds).any (gapStop endTs) = true := by
          simp [List.any_cons, hstop]
        rw [h1, h4]
        rfl
      · have hstop : gapStop endTs d = false := by simp [gapStop, hdm, hlt]
        have hred : processGapDocs endTs (d :: ds) st n =
            processGapDocs endTs ds (saveGapDoc st d).fst
              (if (saveGapDoc st d).snd then n + 1 else n) := by
          simp only [processGapDocs, hdm]
          rw [if_neg hlt]
        rw [hred, ih]
        have hs : d.dm.isSome = true := by rw [hdm]; rfl
        have h1 : (d :: ds).takeWhile (fun q => !gapStop endTs q) =
            d :: ds.takeWhile (fun q => !gapStop endTs q) := by
          simp [List.takeWhile_cons, hstop]
        have h2 : (d :: ds.takeWhile (fun q => !gapStop endTs q)).filter
            (fun q => q.dm.isSome) =
            d :: (ds.takeWhile (fun q => !gapStop endTs q)).filter (fun q => q.dm.isSome) := by
          simp [List.filter_cons, hs]
        have h4 : (d :: ds).any (gapStop endTs) = ds.any (gapStop endTs) := by
          simp [List.any_cons, hstop]
        have hcnt : (if (saveGapDoc st d).snd then n + 1 else n) +
            gapSavedCount (ds.takeWhile (fun q => !gapStop endTs q)) =
            n + gapSavedCount (d :: ds.takeWhile (fun q => !gapStop endTs q)) := by
          by_cases hid : d.id = ""
          · have hsv : (saveGapDoc st d).snd = false := by simp [saveGapDoc, hid]
            have hc : gapSavedCount (d :: ds.takeWhile (fun q => !gapStop endTs q)) =
                gapSavedCount (ds.takeWhile (fun q => !gapStop endTs q)) := by
              simp [gapSavedCount, List.filter_cons, hid]
            rw [if_neg (by simp [hsv]), hc]
          · have hsv : (saveGapDoc st d).snd = true := by simp [saveGapDoc, hid]
            have hc : gapSavedCount (d :: ds.takeWhile (fun q => !gapStop endTs q)) =
                gapSavedCount (ds.takeWhile (fun q => !gapStop endTs q)) + 1 := by
              simp [gapSavedCount, List.filter_cons, hid, hs]
            rw [if_pos hsv, hc]
            omega
        rw [h1, h2, h4, hcnt]
        rfl

/-- C5 (amended): `harvest_date_range` behaves as the single pass over the
concatenation of the returned pages truncated at the first document whose
timestamp exceeds the end of the range: every document of that prefix with
a known timestamp goes through `save_preprint` (so it is stored iff its id
is non-empty) and is counted iff its id is non-empty; documents without a
parsable timestamp are skipped; the first document beyond the end — and
everything after it, including all later pages — is never processed, and
every processed document has `date_modified ≤ end`. -/
theorem harvestDateRange_eq (endTs : Nat) : ∀ (pages : List (List GapDoc))
    (st : List GapRow) (n : Nat),
    harvestDateRange endTs pages st n =
      (gapSaveFold st
        ((pages.flatten.takeWhile (fun d => !gapStop endTs d)).filter (fun d => d.dm.isSome)),
       n + gapSavedCount (pages.flatten.takeWhile (fun d => !gapStop endTs d))) ∧
    ∀ d ∈ pages.flatten.takeWhile (fun d => !gapStop endTs d), gapStop endTs d = false := by
  intro pages
  induction pages with
  | nil =>
    intro st n
    exact ⟨rfl, by simp⟩
  | cons pg pgs ih =>
    intro st n
    constructor
    · rw [harvestDateRange, processGapDocs_eq]
      cases hstop : pg.any (gapStop endTs) with
      | true =>
        rw [if_pos rfl]
        have hfl : (pg ++ pgs.flatten).takeWhile (fun d => !gapStop endTs d) =
            pg.takeWhile (fun d => !gapStop endTs d) :=
          takeWhile_append_of_any _ pg pgs.flatten hstop
        rw [List.flatten_cons, hfl]
      | false =>
        rw [if_neg (by simp)]
        rw [(ih _ _).1]
        have htw : pg.takeWhile (fun d => !gapStop endTs d) = pg :=
          takeWhile_of_any_false _ pg hstop
        have hfl : (pg ++ pgs.flatten).takeWhile (fun d => !gapStop endTs d) =
            pg ++ pgs.flatten.takeWhile (fun d => !gapStop endTs d) :=
          takeWhile_append_of_none _ pg pgs.flatten hstop
        rw [List.flatten_cons, hfl, htw]
        have hfold : gapSaveFold st
            ((pg ++ pgs.flatten.takeWhile (fun d => !gapStop endTs d)).filter
              (fun d => d.dm.isSome)) =
            gapSaveFold (gapSaveFold st (pg.filter (fun d => d.dm.isSome)))
              ((pgs.flatten.takeWhile (fun d => !gapStop endTs d)).filter
                (fun d => d.dm.isSome)) := by
          rw [List.filter_append, gapSaveFold, gapSaveFold, gapSaveFold, List.foldl_append]
        have hcount : gapSavedCount (pg ++ pgs.flatten.takeWhile (fun d => !gapStop endTs d)) =
            gapSavedCount pg +
              gapSavedCount (pgs.flatten.takeWhile (fun d => !gapStop endTs d)) := by
          rw [gapSavedCount, gapSavedCount, gapSavedCount, List.filter_append,
            List.length_append]
        rw [hfold, hcount]
        have hp1 : (gapSaveFold st (pg.filter (fun d => d.dm.isSome)),
            n + gapSavedCount pg, false).fst =
            gapSaveFold st (pg.filter (fun d => d.dm.isSome)) := rfl
        have hp2 : (gapSaveFold st (pg.filter (fun d => d.dm.isSome)),
            n + gapSavedCount pg, false).snd.fst = n + gapSavedCount pg := rfl
        rw [hp1, hp2]
        congr 1
        omega
    · intro d hd
      have := List.mem_takeWhile_imp hd
      simpa using this

/-- Witness for C5: a one-page range containing a single in-range document. -/
theorem harvestDateRange_eq_witness :
    gapStop 10 (GapDoc.mk "a" (some 3)) = false :=
  (harvestDateRange_eq 10 [[GapDoc.mk "a" (some 3)]] [] 0).2 (GapDoc.mk "a" (some 3))
    (by decide)

/-! ### Reconciliation (C2, C7) -/

theorem prow_eq_of_nodup_ids : ∀ (l : List PRow), (l.map PRow.id).Nodup →
    ∀ p ∈ l, ∀ q ∈ l, p.id = q.id → p = q := by
  intro l
  induction l with
  | nil => intro _ p hp; cases hp
  | cons r rs ih =>
    intro h p hp q hq hid
    obtain ⟨hnotin, htail⟩ := List.nodup_cons.mp h
    rcases List.mem_cons.mp hp with h1 | h1
    · rcases List.mem_cons.mp hq with h2 | h2
      · rw [h1, h2]
      · subst h1
        exfalso
        apply hnotin
        rw [hid]
        exact List.mem_map_of_mem PRow.id h2
    · rcases List.mem_cons.mp hq with h2 | h2
      · subst h2
        exfalso
        apply hnotin
        rw [← hid]
        exact List.mem_map_of_mem PRow.id h1
      · exact ih htail p h1 q h2 hid

theorem fixContrib_correct (ps : List PRow) (cs : List CRow)
    (h : (ps.map PRow.id).Nodup) :
    ∀ c ∈ (fixContributorLatestVersionFlags ps cs).fst, ∀ p ∈ ps,
      p.id = c.preprint_id → c.latest = p.latest := by
  intro c2 hc2 p hp hpid
  rw [fixContributorLatestVersionFlags] at hc2
  obtain ⟨c, hc, hfc⟩ := List.mem_map.mp hc2
  cases hmis : contribMismatch ps c with
  | true =>
    rw [if_pos hmis] at hfc
    cases hfind : ps.find? (fun q => q.id == c.preprint_id) with
    | none =>
      obtain ⟨q, hq, hqp⟩ := List.any_eq_true.mp hmis
      have := List.find?_eq_none.mp hfind q hq
      rw [Bool.and_eq_true] at hqp
      exact absurd hqp.1 this
    | some q =>
      rw [hfind] at hfc
      have hqmem := List.mem_of_find?_eq_some hfind
      have hq1 := List.find?_some hfind
      simp only [beq_iff_eq] at hq1
      have hfc2 : CRow.mk c.preprint_id c.osf_user_id q.latest = c2 := hfc
      subst hfc2
      have hpq : p = q := prow_eq_of_nodup_ids ps h p hp q hqmem (by rw [hq1]; exact hpid)
      show q.latest = p.latest
      rw [hpq]
  | false =>
    rw [if_neg (by simp [hmis])] at hfc
    subst hfc
    have hall := List.any_eq_false.mp (by rw [contribMismatch] at hmis; exact hmis) p hp
    rw [Bool.and_eq_true, not_and] at hall
    have := hall (beq_iff_eq.mpr hpid)
    rw [Bool.not_eq_true, bne_eq_false_iff_eq] at this
    exact this.symm

theorem applyFlag_id (ups : List (String × Nat)) (r : PRow) :
    (applyFlag ups r).id = r.id := by
  rw [applyFlag]
  cases ups.find? (fun u => u.fst == r.id) with
  | none => rfl
  | some u => rfl

theorem applyFlag_version (ups : List (String × Nat)) (r : PRow) :
    (applyFlag ups r).version = r.version := by
  rw [applyFlag]
  cases ups.find? (fun u => u.fst == r.id) with
  | none => rfl
  | some u => rfl

theorem applyUpdates_map_id (rows : List PRow) (ups : List (String × Nat)) :
    (applyUpdates rows ups).map PRow.id = rows.map PRow.id := by
  rw [applyUpdates, List.map_map]
  exact List.map_congr_left (fun r _ => applyFlag_id ups r)

/-- C2 (amended): after the reconciliation pass, every `preprint_contributors`
row whose preprint exists in `preprints` carries the parent's
`is_latest_version` flag; the `preprint_subjects` and `preprint_tags`
denormalized copies are not touched by either pass and may therefore still
disagree with the reconciled parent flags. -/
theorem reconciliationPass_contrib_consistent (ps : List PRow) (cs : List CRow)
    (ss : List SRow) (ts : List TRow) (h : (ps.map PRow.id).Nodup) :
    (∀ c ∈ (reconciliationPass ps cs ss ts).2.1, ∀ p ∈ (reconciliationPass ps cs ss ts).1,
      p.id = c.preprint_id → c.latest = p.latest) ∧
    (reconciliationPass ps cs ss ts).2.2.1 = ss ∧
    (reconciliationPass ps cs ss ts).2.2.2 = ts := by
  refine ⟨?_, rfl, rfl⟩
  intro c hc p hp hpid
  have h2 : (((fixLatestVersionFlags ps).fst).map PRow.id).Nodup := by
    rw [fixLatestVersionFlags]
    rw [applyUpdates_map_id]
    exact h
  exact fixContrib_correct (fixLatestVersionFlags ps).fst cs h2 c hc p hp hpid

/-- Witness for C2 (amended): in the two-version state of the C2
counterexample, the reconciled contributor row for `a` carries parent `a`'s
corrected flag. -/
theorem reconciliationPass_contrib_consistent_witness :
    (CRow.mk "a" "u1" 0).latest = (PRow.mk "a" (some 1) 0).latest :=
  (reconciliationPass_contrib_consistent [PRow.mk "a" (some 1) 1, PRow.mk "a_v2" (some 2) 1]
      [CRow.mk "a" "u1" 1] [] [TRow.mk "a" 1 1] (by decide)).1
    (CRow.mk "a" "u1" 0) (by decide) (PRow.mk "a" (some 1) 0) (by decide) rfl

theorem computeUpdates_keys : ∀ (cur : Option String) (s : List PRow),
    ∀ u ∈ computeUpdates cur s, u.fst ∈ s.map PRow.id := by
  intro cur s
  induction s generalizing cur with
  | nil => intro u hu; cases hu
  | cons r rs ih =>
    intro u hu
    simp only [computeUpdates] at hu
    generalize hg : (if cur = some (codeBaseId r.id) then (0 : Nat) else 1) = tgt at hu
    split at hu
    · exact List.mem_cons_of_mem _ (ih _ u hu)
    · rcases List.mem_cons.mp hu with rfl | hu
      · exact List.mem_cons_self _ _
      · exact List.mem_cons_of_mem _ (ih _ u hu)

theorem computeUpdates_mismatch : ∀ (cur : Option String) (s : List PRow),
    ∀ u ∈ computeUpdates cur s, ∃ r ∈ s, r.id = u.fst ∧ r.latest ≠ u.snd := by
  intro cur s
  induction s generalizing cur with
  | nil => intro u hu; cases hu
  | cons r rs ih =>
    intro u hu
    simp only [computeUpdates] at hu
    generalize hg : (if cur = some (codeBaseId r.id) then (0 : Nat) else 1) = tgt at hu
    split at hu
    · obtain ⟨q, hq, hqp⟩ := ih _ u hu
      exact ⟨q, List.mem_cons_of_mem _ hq, hqp⟩
    · rcases List.mem_cons.mp hu with rfl | hu
      · refine ⟨r, List.mem_cons_self _ _, rfl, ?_⟩
        assumption
      · obtain ⟨q, hq, hqp⟩ := ih _ u hu
        exact ⟨q, List.mem_cons_of_mem _ hq, hqp⟩

theorem applyUpdates_skip (rs : List PRow) (a : String) (t : Nat)
    (rest : List (String × Nat)) (hne : ∀ x ∈ rs, x.id ≠ a) :
    applyUpdates rs ((a, t) :: rest) = applyUpdates rs rest := by
  rw [applyUpdates, applyUpdates]
  refine List.map_congr_left ?_
  intro x hx
  rw [applyFlag, applyFlag]
  have hfind : List.find? (fun u => u.1 == x.id) ((a, t) :: rest) =
      List.find? (fun u => u.1 == x.id) rest :=
    List.find?_cons_of_neg _ (fun hb => hne x hx (beq_iff_eq.mp hb).symm)
  rw [hfind]

theorem applyUpdates_computeUpdates : ∀ (cur : Option String) (s : List PRow),
    (s.map PRow.id).Nodup →
    applyUpdates s (computeUpdates cur s) = retarget cur s := by
  intro cur s
  induction s generalizing cur with
  | nil => intro _; rfl
  | cons r rs ih =>
    intro h
    obtain ⟨hnotin, htail⟩ := List.nodup_cons.mp h
    have hkeys : ∀ u ∈ computeUpdates (some (codeBaseId r.id)) rs, u.fst ≠ r.id := by
      intro u hu hc
      exact hnotin (hc ▸ computeUpdates_keys _ rs u hu)
    have hrsne : ∀ x ∈ rs, x.id ≠ r.id := by
      intro x hx hc
      exact hnotin (hc ▸ List.mem_map_of_mem PRow.id hx)
    by_cases hl : r.latest = (if cur = some (codeBaseId r.id) then (0 : Nat) else 1)
    · have hups : computeUpdates cur (r :: rs) =
          computeUpdates (some (codeBaseId r.id)) rs := by
        simp only [computeUpdates]
        rw [if_pos hl]
      have hfind : (computeUpdates (some (codeBaseId r.id)) rs).find?
          (fun u => u.fst == r.id) = none :=
        List.find?_eq_none.mpr (fun u hu => by simp [hkeys u hu])
      rw [hups]
      show applyFlag _ r :: applyUpdates rs _ = retarget cur (r :: rs)
      rw [applyFlag, hfind, ih _ htail]
      simp only [retarget]
      cases r with
      | mk i v l =>
        simp only at hl
        rw [hl]
    · have hups : computeUpdates cur (r :: rs) =
          (r.id, if cur = some (codeBaseId r.id) then (0 : Nat) else 1) ::
            computeUpdates (some (codeBaseId r.id)) rs := by
        simp only [computeUpdates]
        rw [if_neg hl]
      rw [hups]
      show applyFlag _ r :: applyUpdates rs _ = retarget cur (r :: rs)
      rw [applyFlag, List.find?_cons_of_pos _ (by simp), applyUpdates_skip rs _ _ _ hrsne,
        ih _ htail]
      simp only [retarget]

theorem computeUpdates_retarget : ∀ (cur : Option String) (s : List PRow),
    computeUpdates cur (retarget cur s) = [] := by
  intro cur s
  induction s generalizing cur with
  | nil => rfl
  | cons r rs ih =>
    simp only [retarget, computeUpdates]
    rw [if_pos trivial]
    exact ih _

theorem insertRow_map (g : PRow → PRow)
    (hg : ∀ r, (g r).id = r.id ∧ (g r).version = r.version) (r : PRow) :
    ∀ l, insertRow (g r) (l.map g) = (insertRow r l).map g := by
  intro l
  induction l with
  | nil => rfl
  | cons x xs ih =>
    have hb : rowBefore (g r) (g x) = rowBefore r x := by
      rw [rowBefore, rowBefore, (hg r).1, (hg x).1, (hg r).2, (hg x).2]
    cases hbe : rowBefore r x with
    | true => simp only [List.map_cons, insertRow, hb, hbe, if_true, List.map_cons]
    | false =>
      simp only [List.map_cons, insertRow, hb, hbe, Bool.false_eq_true, if_false,
        List.map_cons]
      rw [ih]

theorem foldl_insert_map (g : PRow → PRow)
    (hg : ∀ r, (g r).id = r.id ∧ (g r).version = r.version) :
    ∀ (l acc : List PRow),
      (l.map g).foldl (fun a r => insertRow r a) (acc.map g) =
        (l.foldl (fun a r => insertRow r a) acc).map g := by
  intro l
  induction l with
  | nil => intro acc; rfl
  | cons x xs ih =>
    intro acc
    rw [List.map_cons, List.foldl_cons, List.foldl_cons, insertRow_map g hg x acc]
    exact ih (insertRow x acc)

theorem sortRows_map (g : PRow → PRow)
    (hg : ∀ r, (g r).id = r.id ∧ (g r).version = r.version) (l : List PRow) :
    sortRows (l.map g) = (sortRows l).map g := by
  have := foldl_insert_map g hg l []
  simpa [sortRows] using this

theorem insertRow_perm (r : PRow) : ∀ l : List PRow, (insertRow r l).Perm (r :: l) := by
  intro l
  induction l with
  | nil => exact List.Perm.refl _
  | cons x xs ih =>
    rw [insertRow]
    cases hbe : rowBefore r x with
    | true =>
      rw [if_pos rfl]
    | false =>
      rw [if_neg (by simp)]
      exact (ih.cons x).trans (List.Perm.swap r x xs)

theorem foldl_insert_perm : ∀ (l acc : List PRow),
    (l.foldl (fun a r => insertRow r a) acc).Perm (l ++ acc) := by
  intro l
  induction l with
  | nil => intro acc; exact List.Perm.refl _
  | cons x xs ih =>
    intro acc
    rw [List.foldl_cons]
    have h1 := ih (insertRow x acc)
    have h2 : (xs ++ insertRow x acc).Perm (xs ++ (x :: acc)) :=
      List.Perm.append_left xs (insertRow_perm x acc)
    exact (h1.trans h2).trans List.perm_middle

theorem sortRows_perm (l : List PRow) : (sortRows l).Perm l := by
  have := foldl_insert_perm l []
  simpa [sortRows] using this

/-- C7: both reconciliation passes are idempotent — an immediate second run
of `fix_latest_version_flags` reports 0 updates, and an immediate second
run of `fix_contributor_latest_version_flags` (with the parent table
unchanged in between) updates 0 relationship rows; moreover each pass
records an update only for a row whose stored flag differs from the
computed value, and a pass with nothing to update returns its table
unchanged. -/
theorem fix_passes_idempotent (rows ps : List PRow) (cs : List CRow)
    (h1 : (rows.map PRow.id).Nodup) (h2 : (ps.map PRow.id).Nodup) :
    (fixLatestVersionFlags (fixLatestVersionFlags rows).fst).snd = 0 ∧
    (fixContributorLatestVersionFlags ps
      (fixContributorLatestVersionFlags ps cs).fst).snd = 0 ∧
    (∀ u ∈ computeUpdates none (sortRows rows),
      ∃ r ∈ rows, r.id = u.fst ∧ r.latest ≠ u.snd) ∧
    (computeUpdates none (sortRows rows) = [] → fixLatestVersionFlags rows = (rows, 0)) ∧
    (cs.countP (fun c => contribMismatch ps c) = 0 →
      fixContributorLatestVersionFlags ps cs = (cs, 0)) := by
  refine ⟨?_, ?_, ?_, ?_, ?_⟩
  · have hg : ∀ r, (applyFlag (computeUpdates none (sortRows rows)) r).id = r.id ∧
        (applyFlag (computeUpdates none (sortRows rows)) r).version = r.version :=
      fun r => ⟨applyFlag_id _ r, applyFlag_version _ r⟩
    have hnd : ((sortRows rows).map PRow.id).Nodup :=
      (((sortRows_perm rows).map PRow.id).symm).nodup h1
    have hsorted2 : sortRows ((fixLatestVersionFlags rows).fst) =
        retarget none (sortRows rows) := by
      show sortRows (applyUpdates rows (computeUpdates none (sortRows rows))) = _
      rw [applyUpdates, sortRows_map _ hg rows]
      show applyUpdates (sortRows rows) (computeUpdates none (sortRows rows)) = _
      exact applyUpdates_computeUpdates none (sortRows rows) hnd
    show (computeUpdates none (sortRows (fixLatestVersionFlags rows).fst)).length = 0
    rw [hsorted2, computeUpdates_retarget]
    rfl
  · have hfc := fixContrib_correct ps cs h2
    show ((fixContributorLatestVersionFlags ps cs).fst.countP
      (fun c => contribMismatch ps c)) = 0
    refine List.countP_eq_zero.mpr ?_
    intro c2 hc2 hmis
    obtain ⟨p, hp, hpp⟩ := List.any_eq_true.mp hmis
    rw [Bool.and_eq_true] at hpp
    have := hfc c2 hc2 p hp (beq_iff_eq.mp hpp.1)
    rw [this] at hpp
    simp at hpp
  · intro u hu
    obtain ⟨r, hr, hrp⟩ := computeUpdates_mismatch none (sortRows rows) u hu
    exact ⟨r, (sortRows_perm rows).mem_iff.mp hr, hrp⟩
  · intro h
    show (applyUpdates rows (computeUpdates none (sortRows rows)),
      (computeUpdates none (sortRows rows)).length) = (rows, 0)
    rw [h]
    have happ : ∀ r ∈ rows, applyFlag [] r = r := fun r _ => rfl
    rw [applyUpdates, List.map_congr_left happ]
    simp
  · intro h
    have hall := List.countP_eq_zero.mp h
    show (cs.map _, cs.countP (fun c => contribMismatch ps c)) = (cs, 0)
    rw [h]
    rw [List.map_congr_left (fun c hc => if_neg (hall c hc))]
    simp

/-- Witness for C7: the second reconciliation run over the two-version
state performs zero updates. -/
theorem fix_passes_idempotent_witness :
    (fixLatestVersionFlags (fixLatestVersionFlags
        [PRow.mk "a" (some 1) 1, PRow.mk "a_v2" (some 2) 1]).fst).snd = 0 :=
  (fix_passes_idempotent [PRow.mk "a" (some 1) 1, PRow.mk "a_v2" (some 2) 1]
      [PRow.mk "a" (some 1) 1] [CRow.mk "a" "u1" 1] (by decide) (by decide)).1

/-- C6 (amended): `process_preprint` runs its phases inside one
`try`/`except`: an exception in *any* phase — the top-level parent upsert
or any sub-entity phase — is caught at the record level and makes the
function return False, and no later phase runs (in particular an exception
while processing subjects leaves the tag tables, contributor table and
relationship table untouched); the function returns True exactly when no
phase raises. -/
theorem processPreprint_exception_spec (oracle : Step → Bool) (pid : String)
    (rec : RecordData) (st : IngestState) :
    ((processPreprint oracle pid rec st).fst = true ↔ ∀ s, oracle s = false) ∧
    (oracle Step.parentUpsert = true → processPreprint oracle pid rec st = (false, st)) ∧
    (oracle Step.parentUpsert = false → oracle Step.subjectsStep = true →
      (processPreprint oracle pid rec st).fst = false ∧
      (processPreprint oracle pid rec st).snd.tags = st.tags ∧
      (processPreprint oracle pid rec st).snd.preprintTags = st.preprintTags ∧
      (processPreprint oracle pid rec st).snd.contributors = st.contributors ∧
      (processPreprint oracle pid rec st).snd.preprintContributors =
        st.preprintContributors) ∧
    ((∃ s, oracle s = true) → (processPreprint oracle pid rec st).fst = false) := by
  by_cases h1 : oracle Step.parentUpsert = true
  · have hred : processPreprint oracle pid rec st = (false, st) := by
      rw [processPreprint, if_pos h1]
    refine ⟨?_, fun _ => hred, fun hf _ => ?_, fun _ => by rw [hred]⟩
    · rw [hred]
      constructor
      · intro hcon; cases hcon
      · intro hall
        have := hall Step.parentUpsert
        rw [h1] at this
        cases this
    · rw [hf] at h1
      cases h1
  · have h1f : oracle Step.parentUpsert = false := by
      cases hv : oracle Step.parentUpsert with
      | false => rfl
      | true => exact absurd hv h1
    by_cases h2 : oracle Step.subjectsStep = true
    · have hred : processPreprint oracle pid rec st = (false, upsertParent st pid) := by
        simp [processPreprint, h1f, h2]
      refine ⟨?_, fun hcon => ?_, fun _ _ => ?_, fun _ => by rw [hred]⟩
      · rw [hred]
        constructor
        · intro hcon; cases hcon
        · intro hall
          have := hall Step.subjectsStep
          rw [h2] at this
          cases this
      · rw [hcon] at h1f
        cases h1f
      · rw [hred]
        exact ⟨rfl, rfl, rfl, rfl, rfl⟩
    · have h2f : oracle Step.subjectsStep = false := by
        cases hv : oracle Step.subjectsStep with
        | false => rfl
        | true => exact absurd hv h2
      by_cases h3 : oracle Step.tagsStep = true
      · have hfst : (processPreprint oracle pid rec st).fst = false := by
          simp [processPreprint, h1f, h2f, h3]
        refine ⟨?_, fun hcon => ?_, fun _ hcon => ?_, fun _ => hfst⟩
        · rw [hfst]
          constructor
          · intro hcon; cases hcon
          · intro hall
            have := hall Step.tagsStep
            rw [h3] at this
            cases this
        · rw [hcon] at h1f
          cases h1f
        · rw [hcon] at h2f
          cases h2f
      · have h3f : oracle Step.tagsStep = false := by
          cases hv : oracle Step.tagsStep with
          | false => rfl
          | true => exact absurd hv h3
        by_cases h4 : oracle Step.contributorsStep = true
        · have hfst : (processPreprint oracle pid rec st).fst = false := by
            simp [processPreprint, h1f, h2f, h3f, h4]
          refine ⟨?_, fun hcon => ?_, fun _ hcon => ?_, fun _ => hfst⟩
          · rw [hfst]
            constructor
            · intro hcon; cases hcon
            · intro hall
              have := hall Step.contributorsStep
              rw [h4] at this
              cases this
          · rw [hcon] at h1f
            cases h1f
          · rw [hcon] at h2f
            cases h2f
        · have h4f : oracle Step.contributorsStep = false := by
            cases hv : oracle Step.contributorsStep with
            | false => rfl
            | true => exact absurd hv h4
          by_cases h5 : oracle Step.relationshipsStep = true
          · have hfst : (processPreprint oracle pid rec st).fst = false := by
              simp [processPreprint, h1f, h2f, h3f, h4f, h5]
            refine ⟨?_, fun hcon => ?_, fun _ hcon => ?_, fun _ => hfst⟩
            · rw [hfst]
              constructor
              · intro hcon; cases hcon
              · intro hall
                have := hall Step.relationshipsStep
                rw [h5] at this
                cases this
            · rw [hcon] at h1f
              cases h1f
            · rw [hcon] at h2f
              cases h2f
          · have h5f : oracle Step.relationshipsStep = false := by
              cases hv : oracle Step.relationshipsStep with
              | false => rfl
              | true => exact absurd hv h5
            have hfst : (processPreprint oracle pid rec st).fst = true := by
              simp [processPreprint, h1f, h2f, h3f, h4f, h5f]
            refine ⟨?_, fun hcon => ?_, fun _ hcon => ?_, fun hex => ?_⟩
            · rw [hfst]
              constructor
              · intro _ s
                cases s
                · exact h1f
                · exact h2f
                · exact h3f
                · exact h4f
                · exact h5f
              · intro _
                rfl
            · rw [hcon] at h1f
              cases h1f
            · rw [hcon] at h2f
              cases h2f
            · obtain ⟨s, hs⟩ := hex
              cases s
              · rw [hs] at h1f; cases h1f
              · rw [hs] at h2f; cases h2f
              · rw [hs] at h3f; cases h3f
              · rw [hs] at h4f; cases h4f
              · rw [hs] at h5f; cases h5f

/-- Witness for C6 (amended): a database exception during the subjects
phase of the concrete record leaves the tag lookup table untouched. -/
theorem processPreprint_exception_spec_witness :
    (processPreprint (fun s => s == Step.subjectsStep) "p1" recC6
        emptyIngestState).snd.preprintTags = emptyIngestState.preprintTags :=
  ((processPreprint_exception_spec (fun s => s == Step.subjectsStep) "p1" recC6
      emptyIngestState).2.2.1 (by decide) (by decide)).2.2.1
